import Mathlib

/-!
Verification of the promptspec spec scanner (`src/promptspec/tui/scanner.py`)
and root-text segmenter (`src/promptspec/controller.py`).

The Python code is embedded shallowly: text is a `List Char`; each regular
expression of the scanner's pattern library becomes a hand-written matcher
function with Python `re` semantics (MULTILINE anchors, greedy munching,
non-overlapping `finditer`), and each Python function becomes a total Lean
function on `List Char`.  Python's `\w`, `\s` and `str.isspace` are modelled
on their ASCII core; `str.splitlines` is modelled for the terminators
`\n`, `\r\n`, `\r`.  Python float values are not interpreted: a config value
that Python would coerce with `float(...)` is kept as the raw accepted text
(claims here never depend on float arithmetic).
-/

set_option maxRecDepth 100000

namespace PromptSpec

/-- ASCII core of Python's regex class `[ \t]`. -/
def isSpaceTab (c : Char) : Bool := c = ' ' || c = '\t'

/-- ASCII core of Python's regex class `\s` / `str.isspace`. -/
def isPyWhite (c : Char) : Bool :=
  c = ' ' || c = '\t' || c = '\n' || c = '\r' || c = '\x0b' || c = '\x0c'

/-- ASCII core of Python's regex class `\w`. -/
def isWordCharB (c : Char) : Bool := c.isAlpha || c.isDigit || c = '_'

/-- `litAt pat s` — does `s` start with the literal `pat`?  (`str.startswith`). -/
def litAt : List Char → List Char → Bool
  | [], _ => true
  | _ :: _, [] => false
  | p :: ps, c :: cs => p = c && litAt ps cs

/-- Python `str.strip()` (ASCII whitespace). -/
def stripChars (s : List Char) : List Char :=
  ((s.dropWhile isPyWhite).reverse.dropWhile isPyWhite).reverse

/-- Substring containment, Python `needle in hay`. -/
def containsSub (n : List Char) : List Char → Bool
  | [] => litAt n []
  | c :: rest => litAt n (c :: rest) || containsSub n rest

/-- Python `str.splitlines()` worker; `acc` holds the current line reversed.
A final terminator produces no trailing empty line. -/
def slGo (acc : List Char) : List Char → List (List Char)
  | [] => [acc.reverse]
  | [c] =>
    if c = '\n' || c = '\r' then [acc.reverse] else [(c :: acc).reverse]
  | c :: c2 :: rest =>
    if c = '\n' then acc.reverse :: slGo [] (c2 :: rest)
    else if c = '\r' then
      if c2 = '\n' then acc.reverse :: (if rest = [] then [] else slGo [] rest)
      else acc.reverse :: slGo [] (c2 :: rest)
    else slGo (c :: acc) (c2 :: rest)

/-- Python `str.splitlines()` (for `\n`, `\r\n`, `\r`). -/
def splitLines : List Char → List (List Char)
  | [] => []
  | s => slGo [] s

/-- Python `str.split("\n")` worker. -/
def snGo (acc : List Char) : List Char → List (List Char)
  | [] => [acc.reverse]
  | '\n' :: rest => acc.reverse :: snGo [] rest
  | c :: rest => snGo (c :: acc) rest

/-- Python `str.split("\n")` — always returns at least one piece. -/
def splitNl (s : List Char) : List (List Char) := snGo [] s

/-- Python `"\n".join(lines)`. -/
def joinNl : List (List Char) → List Char
  | [] => []
  | [l] => l
  | l :: ls => l ++ '\n' :: joinNl ls

/-- Python `" ".join(parts)`. -/
def joinSpace : List (List Char) → List Char
  | [] => []
  | [l] => l
  | l :: ls => l ++ ' ' :: joinSpace ls

/-- Python `sep.join(parts)` for a general separator. -/
def joinSep (sep : List Char) : List (List Char) → List Char
  | [] => []
  | [l] => l
  | l :: ls => l ++ sep ++ joinSep sep ls

/-!
## Pattern library

One matcher per compiled regex of the scanner.  A matcher receives the flag
"this position is a line start" (`re.MULTILINE` `^`) and the suffix of the
text at the current position, and returns the captured value together with
the suffix after the match end, or `none`.  Greedy munching with the
backtracking behaviour of each concrete pattern is compiled in by hand: in
every pattern below each greedy piece is followed by a piece whose first
character it can never match, so maximal munch is the unique candidate.
-/

/-- `_MUSTACHE_VAR = \{\{(\w+)\}\}` (no anchor). -/
def mustacheM (_ : Bool) (s : List Char) : Option (List Char × List Char) :=
  match s with
  | '\x7b' :: '\x7b' :: t =>
    let w := t.takeWhile isWordCharB
    if w = [] then none
    else
      match t.dropWhile isWordCharB with
      | '\x7d' :: '\x7d' :: r2 => some (w, r2)
      | _ => none
  | _ => none

/-- `^[ \t]*@kw\s+(\w+)` (MULTILINE): used for `@match`, `@if`, `@prompt`.
Captures the variable name; also returns the match-end suffix as part of the
capture, because `scan_spec` hands `m.end()` of a `@match` to the case
extractor. -/
def dirWordM (kw : List Char) (b : Bool) (s : List Char) :
    Option ((List Char × List Char) × List Char) :=
  if !b then none
  else
    let s1 := s.dropWhile isSpaceTab
    if litAt kw s1 then
      let s2 := s1.drop kw.length
      if s2.takeWhile isPyWhite = [] then none
      else
        let s3 := s2.dropWhile isPyWhite
        let v := s3.takeWhile isWordCharB
        if v = [] then none
        else some ((v, s3.dropWhile isWordCharB), s3.dropWhile isWordCharB)
    else none

/-- `^[ \t]*@kw\s+(\S+)` (MULTILINE): used for `@tool`, `@refine`. -/
def dirNonWsM (kw : List Char) (b : Bool) (s : List Char) :
    Option (List Char × List Char) :=
  if !b then none
  else
    let s1 := s.dropWhile isSpaceTab
    if litAt kw s1 then
      let s2 := s1.drop kw.length
      if s2.takeWhile isPyWhite = [] then none
      else
        let s3 := s2.dropWhile isPyWhite
        let v := s3.takeWhile (fun c => !isPyWhite c)
        if v = [] then none
        else some (v, s3.dropWhile (fun c => !isPyWhite c))
    else none

/-- `^[ \t]*@kw\s+file:\s*(\S+)` (MULTILINE): `@embed`, `@summarize`,
`@compress`, `@extract`. -/
def fileDirM (kw : List Char) (b : Bool) (s : List Char) :
    Option (List Char × List Char) :=
  if !b then none
  else
    let s1 := s.dropWhile isSpaceTab
    if litAt kw s1 then
      let s2 := s1.drop kw.length
      if s2.takeWhile isPyWhite = [] then none
      else
        let s3 := s2.dropWhile isPyWhite
        if litAt "file:".data s3 then
          let s4 := (s3.drop 5).dropWhile isPyWhite
          let v := s4.takeWhile (fun c => !isPyWhite c)
          if v = [] then none
          else some (v, s4.dropWhile (fun c => !isPyWhite c))
        else none
    else none

/-- `^[ \t]*@assert\s+(.*)` (MULTILINE). -/
def assertM (b : Bool) (s : List Char) : Option (List Char × List Char) :=
  if !b then none
  else
    let s1 := s.dropWhile isSpaceTab
    if litAt "@assert".data s1 then
      let s2 := s1.drop 7
      if s2.takeWhile isPyWhite = [] then none
      else
        let s3 := s2.dropWhile isPyWhite
        some (s3.takeWhile (· ≠ '\n'), s3.dropWhile (· ≠ '\n'))
    else none

/-- `_MATCH_CASE = ^[ \t]*"([^"]+)"\s*==>` (MULTILINE). -/
def caseM (b : Bool) (s : List Char) : Option (List Char × List Char) :=
  if !b then none
  else
    let s1 := s.dropWhile isSpaceTab
    if litAt ['"'] s1 then
      let t := s1.drop 1
      let lit := t.takeWhile (· ≠ '"')
      if lit = [] then none
      else
        let r := t.dropWhile (· ≠ '"')
        if litAt ['"'] r then
          let r3 := (r.drop 1).dropWhile isPyWhite
          if litAt "==>".data r3 then some (lit, r3.drop 3) else none
        else none
    else none

/-- `^[ \t]*_\s*==>` (MULTILINE), the wildcard case of a `@match`. -/
def wildM (b : Bool) (s : List Char) : Option (Unit × List Char) :=
  if !b then none
  else
    let s1 := s.dropWhile isSpaceTab
    if litAt ['_'] s1 then
      let t2 := (s1.drop 1).dropWhile isPyWhite
      if litAt "==>".data t2 then some ((), t2.drop 3) else none
    else none

/-- `_NOTE_BLOCK = ^[ \t]*@note\s*\n(...)`.  Only existence is consumed by
`scan_spec` (`has_notes`), so the captured block is not reproduced: the
mandatory part matches iff the maximal whitespace run after `@note` contains
a newline. -/
def noteM (b : Bool) (s : List Char) : Option (Unit × List Char) :=
  if !b then none
  else
    let s1 := s.dropWhile isSpaceTab
    if litAt "@note".data s1 then
      if ((s1.drop 5).takeWhile isPyWhite).contains '\n' then
        some ((), s1.drop 5)
      else none
    else none

/-- `_HEADING = ^#\s+(.+)` (MULTILINE), used with `.search`.  The greedy
`\s+` backtracks only when no non-whitespace character follows the run: the
largest number of consumed whitespace characters after which a non-newline
character remains wins, so if the text ends inside the run the capture is
the last non-newline whitespace character of the run past its first
character (the title strips to `""` there). -/
def headingM (b : Bool) (s : List Char) : Option (List Char × List Char) :=
  if !b then none
  else
    match s with
    | '#' :: t =>
      let ws := t.takeWhile isPyWhite
      if ws = [] then none
      else
        match t.dropWhile isPyWhite with
        | [] =>
          match ((ws.drop 1).filter (· ≠ '\n')).getLast? with
          | some c => some ([c], [])
          | none => none
        | r => some (r.takeWhile (· ≠ '\n'), r.dropWhile (· ≠ '\n'))
    | _ => none

/-- The parameter block `((?:\n(?:[ \t]+\S.*))*)` of `_EXECUTE_DIRECTIVE`:
each greedy iteration consumes a newline, one-or-more spaces/tabs, then a
non-whitespace character and the rest of its line.  Returns the captured
block and the suffix after it.  Fuel decreases by one per iteration and each
iteration consumes at least one character. -/
def execCont : Nat → List Char → List Char × List Char
  | 0, s => ([], s)
  | fuel + 1, s =>
    match s with
    | [] => ([], [])
    | c :: t =>
      if c = '\n' then
        let ind := t.takeWhile isSpaceTab
        let r := t.dropWhile isSpaceTab
        if ind ≠ [] && !isPyWhite (r.headD ' ') then
          let content := r.takeWhile (· ≠ '\n')
          let p := execCont fuel (r.dropWhile (· ≠ '\n'))
          ('\n' :: (ind ++ content ++ p.1), p.2)
        else ([], c :: t)
      else ([], c :: t)

/-- `_EXECUTE_DIRECTIVE = ^[ \t]*@execute\s+(\S+)((?:\n(?:[ \t]+\S.*))*)`.
Captures (strategy, parameter block). -/
def execM (b : Bool) (s : List Char) :
    Option ((List Char × List Char) × List Char) :=
  if !b then none
  else
    let s1 := s.dropWhile isSpaceTab
    if litAt "@execute".data s1 then
      let s2 := s1.drop 8
      if s2.takeWhile isPyWhite = [] then none
      else
        let s3 := s2.dropWhile isPyWhite
        let strat := s3.takeWhile (fun c => !isPyWhite c)
        if strat = [] then none
        else
          let s4 := s3.dropWhile (fun c => !isPyWhite c)
          let p := execCont s4.length s4
          some ((strat, p.1), p.2)
    else none

/-!
## The finditer driver

`re.finditer` scans left to right, attempting the pattern at every position
and continuing after the end of each (non-overlapping) match.  All patterns
above consume at least one character when they match and never consume a
final newline (an `@assert` whose capture is empty ends the text), so after
a match the next position is never a line start; after skipping a character
`c` the next position is a line start iff `c` is a newline.  Fuel decreases
at every step.  `re.search` is the head of the match list.
-/

def finditerAux {α : Type} (m : Bool → List Char → Option (α × List Char)) :
    Nat → Bool → List Char → List α
  | 0, _, _ => []
  | _ + 1, _, [] => []
  | fuel + 1, atStart, c :: rest =>
    match m atStart (c :: rest) with
    | some (a, s2) => a :: finditerAux m fuel false s2
    | none => finditerAux m fuel (c = '\n') rest

/-- All matches of a pattern in a text, in order (`re.finditer`). -/
def runFinditer {α : Type} (m : Bool → List Char → Option (α × List Char))
    (s : List Char) : List α :=
  finditerAux m (s.length + 1) true s

/-- First match of a pattern (`re.search`). -/
def searchFirst {α : Type} (m : Bool → List Char → Option (α × List Char))
    (s : List Char) : Option α :=
  (runFinditer m s).head?

/-!
## Data model (`SpecInput`, `SpecMetadata`) and value coercion
-/

/-- A scalar in the `execution` map.  `vfloat` keeps the raw text accepted by
Python `float(...)`; float values themselves are never interpreted. -/
inductive ConfigVal : Type
  | vint : Int → ConfigVal
  | vfloat : List Char → ConfigVal
  | vstr : List Char → ConfigVal
deriving DecidableEq

/-- `SpecInput` — a single user-facing input discovered in a spec. -/
structure SpecInput : Type where
  name : List Char
  input_type : List Char
  options : Option (List (List Char))
  default : Option (List Char)
  description : Option (List Char)
  file_hint : Option (List Char)
  source_directive : Option (List Char)
deriving DecidableEq

/-- `SpecMetadata` — structured metadata extracted from a spec. -/
structure SpecMetadata : Type where
  title : List Char
  description : List Char
  inputs : List SpecInput
  execution : Option (List (List Char × ConfigVal))
  prompt_names : List (List Char)
  tool_names : List (List Char)
  refine_files : List (List Char)
  embed_files : List (List Char)
  assertions : List (List Char)
  has_notes : Bool
deriving DecidableEq

/-- Digit run with Python underscore rules: single underscores strictly
between digits. -/
def duGo : List Char → Bool
  | [] => true
  | '_' :: rest =>
    match rest with
    | c :: r => c.isDigit && duGo r
    | [] => false
  | c :: rest => c.isDigit && duGo rest

/-- Nonempty digit run with underscore rules (body of a Python int literal). -/
def pyIntDigits : List Char → Bool
  | [] => false
  | c :: rest => c.isDigit && duGo rest

/-- Numeric value of a digit-and-underscore run. -/
def natOfDigits (s : List Char) : Nat :=
  s.foldl (fun n c => if c = '_' then n else n * 10 + (c.toNat - '0'.toNat)) 0

/-- Python `int(v)` on an already-stripped string (ASCII digits). -/
def pyInt? : List Char → Option Int
  | '+' :: rest => if pyIntDigits rest then some (natOfDigits rest : Int) else none
  | '-' :: rest => if pyIntDigits rest then some (-(natOfDigits rest : Int)) else none
  | s => if pyIntDigits s then some (natOfDigits s : Int) else none

/-- Split at the first character satisfying `p`; `none` if absent. -/
def splitFirst (p : Char → Bool) : List Char → List Char × Option (List Char)
  | [] => ([], none)
  | c :: rest =>
    if p c then ([], some rest)
    else
      let r := splitFirst p rest
      (c :: r.1, r.2)

/-- Acceptance of the mantissa-with-exponent form of a Python float literal. -/
def floatNum (t : List Char) : Bool :=
  let em := splitFirst (fun c => c = 'e' || c = 'E') t
  let expOk :=
    match em.2 with
    | none => true
    | some ('+' :: d) => pyIntDigits d
    | some ('-' :: d) => pyIntDigits d
    | some d => pyIntDigits d
  let dm := splitFirst (· = '.') em.1
  let mantOk :=
    match dm.2 with
    | none => pyIntDigits em.1
    | some frac =>
      if dm.1 = [] then pyIntDigits frac
      else pyIntDigits dm.1 && (frac = [] || pyIntDigits frac)
  mantOk && expOk

/-- Does Python `float(v)` accept `v` (already stripped)? -/
def pyFloatOk (s : List Char) : Bool :=
  let t := match s with
    | '+' :: r => r
    | '-' :: r => r
    | r => r
  let lt := t.map Char.toLower
  if lt = "inf".data || lt = "infinity".data || lt = "nan".data then true
  else floatNum t

/-- `try int(v) … try float(v) … except: pass` — first coercion wins. -/
def coerceVal (v : List Char) : ConfigVal :=
  match pyInt? v with
  | some n => ConfigVal.vint n
  | none => if pyFloatOk v then ConfigVal.vfloat v else ConfigVal.vstr v

/-- Python dict assignment on an insertion-ordered association list. -/
def dictInsert (k : List Char) (v : ConfigVal) :
    List (List Char × ConfigVal) → List (List Char × ConfigVal)
  | [] => [(k, v)]
  | (k2, v2) :: rest =>
    if k2 = k then (k, v) :: rest else (k2, v2) :: dictInsert k v rest

/-- One line of the `@execute` config loop: for a stripped line containing
`:`, insert `strip(key) ↦ coerce(strip(value))` (`line.partition(":")`). -/
def configStep (config : List (List Char × ConfigVal)) (l2 : List Char) :
    List (List Char × ConfigVal) :=
  if containsSub ":".data l2 then
    dictInsert (stripChars (l2.takeWhile (· ≠ ':')))
      (coerceVal (stripChars ((l2.dropWhile (· ≠ ':')).drop 1))) config
  else config

/-- The `@execute` config construction of `scan_spec`: strip the captured
block, split it into lines, and fold `configStep` over the stripped lines
starting from `{"type": strategy}`. -/
def buildExecution (m : List Char × List Char) : List (List Char × ConfigVal) :=
  (splitLines (stripChars m.2)).foldl
    (fun config l => configStep config (stripChars l))
    [("type".data, ConfigVal.vstr m.1)]

/-- First-occurrence-order deduplication (`dict.fromkeys`). -/
def dedupKeys (seen : List (List Char)) : List (List Char) → List (List Char)
  | [] => []
  | x :: xs => if x ∈ seen then dedupKeys seen xs else x :: dedupKeys (x :: seen) xs

/-- Association-list lookup (Python `dict.get`). -/
def lookupL (k : List Char) : List (List Char × List Char) → Option (List Char)
  | [] => none
  | (k2, v) :: rest => if k2 = k then some v else lookupL k rest

/-!
## Scanner helpers (`_extract_description`, `_extract_match_cases`,
`_extract_note_hints`, small predicates)
-/

/-- Loop body of `_extract_description`: skip the first `# ` heading, stop at
the first directive line or at a heading after the title, collect lines once
past the title. -/
def descAux : Bool → List (List Char) → List (List Char)
  | _, [] => []
  | pastTitle, l :: rest =>
    let st := stripChars l
    if !pastTitle && litAt "# ".data st then descAux true rest
    else if litAt "@".data st || (pastTitle && litAt "#".data st) then []
    else if pastTitle then l :: descAux pastTitle rest
    else descAux pastTitle rest

/-- `_extract_description`. -/
def extractDescription (text : List Char) : List Char :=
  stripChars (joinNl (descAux false (splitLines text)))

/-- `_extract_match_cases`: all `"literal" ==>` captures in the text after
the `@match` match end, plus a `"_"` sentinel if a wildcard case occurs. -/
def extractMatchCases (remaining : List Char) : List (List Char) :=
  runFinditer caseM remaining ++
    (if (searchFirst wildM remaining).isSome then ["_".data] else [])

/-- First pass of `_extract_note_hints`: walk the lines with the current
open `@note` block (start index, collected stripped content, reversed) and
produce `(start, end, text)` ranges; `end` is the index of the first line
that is neither blank nor `"  "`-indented. -/
def noteScan : Option (Nat × List (List Char)) → Nat → List (List Char) →
    List (Nat × Nat × List Char)
  | none, _, [] => []
  | some (st, acc), i, [] => [(st, i, joinSpace acc.reverse)]
  | none, i, l :: ls =>
    if litAt "@note".data (stripChars l) then noteScan (some (i, [])) (i + 1) ls
    else noteScan none (i + 1) ls
  | some (st, acc), i, l :: ls =>
    if litAt "  ".data l || stripChars l = [] then
      noteScan (some (st, if stripChars l = [] then acc else stripChars l :: acc))
        (i + 1) ls
    else
      (st, i, joinSpace acc.reverse) ::
        (if litAt "@note".data (stripChars l) then noteScan (some (i, [])) (i + 1) ls
         else noteScan none (i + 1) ls)

/-- First `@note` range qualifying for a variable on line `idx`
(`0 <= line_idx - note_end <= 5`, in ℕ: `end ≤ idx ≤ end + 5`), with its
text truncated to 200 characters. -/
def firstHintRange (ranges : List (Nat × Nat × List Char)) (idx : Nat) :
    Option (List Char) :=
  match ranges with
  | [] => none
  | (_, ne, nt) :: rest =>
    if ne ≤ idx && idx ≤ ne + 5 then some (nt.take 200)
    else firstHintRange rest idx

/-- Process one line of the second pass: each `{{var}}` occurrence not yet in
the map receives the first qualifying note text, if any. -/
def hintLine (ranges : List (Nat × Nat × List Char)) (idx : Nat)
    (hints : List (List Char × List Char)) (l : List Char) :
    List (List Char × List Char) :=
  (runFinditer mustacheM l).foldl
    (fun h v =>
      if (lookupL v h).isSome then h
      else
        match firstHintRange ranges idx with
        | some t => h ++ [(v, t)]
        | none => h)
    hints

/-- Second pass of `_extract_note_hints` over all lines. -/
def hintsPass (ranges : List (Nat × Nat × List Char)) :
    Nat → List (List Char) → List (List Char × List Char) →
    List (List Char × List Char)
  | _, [], h => h
  | i, l :: ls, h => hintsPass ranges (i + 1) ls (hintLine ranges i h l)

/-- `_extract_note_hints` on a line list. -/
def noteHintsLines (lines : List (List Char)) : List (List Char × List Char) :=
  hintsPass (noteScan none 0 lines) 0 lines []

/-- `_extract_note_hints`. -/
def extractNoteHints (text : List Char) : List (List Char × List Char) :=
  noteHintsLines (splitLines text)

/-- `_is_variable`: the path references a `{{variable}}`. -/
def isVarPath (p : List Char) : Bool :=
  containsSub ('\x7b' :: '\x7b' :: []) p && containsSub ('\x7d' :: '\x7d' :: []) p

/-- `_extract_var_name`: first `{{var}}` capture in the path. -/
def mustacheName? (p : List Char) : Option (List Char) :=
  searchFirst mustacheM p

/-- `_MULTILINE_HINTS`. -/
def multilineHints : List (List Char) :=
  ["description".data, "text".data, "content".data, "body".data, "prompt".data,
   "instructions".data, "message".data, "context".data, "details".data,
   "summary".data, "draft".data, "template".data, "text_a".data, "text_b".data,
   "input_text".data, "output_text".data]

/-- `_is_multiline_hint`. -/
def isMultilineHintB (v : List Char) : Bool :=
  multilineHints.any (fun h => containsSub h (v.map Char.toLower))

/-- `_INTERNAL_VARS` — strategy-injected variable names. -/
def internalVars : List (List Char) :=
  ["edited_content".data, "original_content".data, "best_path".data, "state".data]

/-- `_RICH_FORMAT_HINT`. -/
def richFormatHint : List Char :=
  "Supports: .txt, .md, .pdf, .docx, .pptx, .xlsx, .html".data

/-!
## Input classification

`scan_spec` runs five collection loops over one shared `seen_names` set,
appending to one `inputs` list.  Each loop is a stage: a skip predicate
(trivial except for the `_INTERNAL_VARS` check of the placeholder fallback)
and a candidate list of `(variable name, ready descriptor)` pairs in match
order.  `dedupInputs` is the shared body `if name in seen: continue … append`.
-/

/-- One collection loop of `scan_spec` over the shared `seen` set. -/
def dedupInputs (skip : List Char → Bool) :
    List (List Char × SpecInput) → List (List Char) →
    List (List Char) × List SpecInput
  | [], seen => (seen, [])
  | (k, d) :: cs, seen =>
    if k ∈ seen || skip k then dedupInputs skip cs seen
    else
      let p := dedupInputs skip cs (k :: seen)
      (p.1, d :: p.2)

/-- A stage: skip predicate and candidate list. -/
def Stage : Type := (List Char → Bool) × List (List Char × SpecInput)

/-- Run the collection loops in order, threading `seen` through. -/
def runStages : List Stage → List (List Char) → List SpecInput
  | [], _ => []
  | stg :: rest, seen =>
    let p := dedupInputs stg.1 stg.2 seen
    p.2 ++ runStages rest p.1

/-- All `@match` matches: (variable, text after the match end). -/
def matchPairs (text : List Char) : List (List Char × List Char) :=
  runFinditer (dirWordM "@match".data) text

/-- The variables that are subjects of `@match` directives, in match order. -/
def matchDirectiveVars (text : List Char) : List (List Char) :=
  (matchPairs text).map Prod.fst

/-- The variables that are conditions of `@if` directives, in match order. -/
def ifDirectiveVars (text : List Char) : List (List Char) :=
  (runFinditer (dirWordM "@if".data) text).map Prod.fst

/-- All `{{var}}` captures in the text, in order. -/
def mustacheVars (text : List Char) : List (List Char) :=
  runFinditer mustacheM text

/-- Variable names among a file-directive's path arguments. -/
def fileVarsOf (paths : List (List Char)) : List (List Char) :=
  paths.filterMap (fun p => if isVarPath p then mustacheName? p else none)

/-- Path arguments of `@embed file:`. -/
def embedPaths (text : List Char) : List (List Char) :=
  runFinditer (fileDirM "@embed".data) text

/-- Path arguments of `@summarize file:`. -/
def summarizePaths (text : List Char) : List (List Char) :=
  runFinditer (fileDirM "@summarize".data) text

/-- Path arguments of `@compress file:`. -/
def compressPaths (text : List Char) : List (List Char) :=
  runFinditer (fileDirM "@compress".data) text

/-- Path arguments of `@extract file:`. -/
def extractPaths (text : List Char) : List (List Char) :=
  runFinditer (fileDirM "@extract".data) text

/-- Path arguments of `@refine`. -/
def refinePaths (text : List Char) : List (List Char) :=
  runFinditer (dirNonWsM "@refine".data) text

/-- Every variable name claimed by a file-accepting directive
(`@embed`, `@summarize`, `@compress`, `@extract`, `@refine`). -/
def fileDirectiveVars (text : List Char) : List (List Char) :=
  fileVarsOf (embedPaths text) ++ fileVarsOf (summarizePaths text) ++
    fileVarsOf (compressPaths text) ++ fileVarsOf (extractPaths text) ++
    fileVarsOf (refinePaths text)

/-- Descriptor built by loop 1 for a `@match` variable. -/
def mkSelect (hints : List (List Char × List Char)) (m : List Char × List Char) :
    List Char × SpecInput :=
  (m.1, ⟨m.1, "select".data, some (extractMatchCases m.2), none,
    lookupL m.1 hints, none, some "@match".data⟩)

/-- Descriptor built by loop 2 for an `@if` variable. -/
def mkBool (hints : List (List Char × List Char)) (v : List Char) :
    List Char × SpecInput :=
  (v, ⟨v, "boolean".data, none, some "false".data, lookupL v hints, none,
    some "@if".data⟩)

/-- Descriptor built by loop 3 for a file-directive variable. -/
def mkFileRich (hints : List (List Char × List Char)) (dir : List Char)
    (v : List Char) : List Char × SpecInput :=
  (v, ⟨v, "file".data, none, none, lookupL v hints, some richFormatHint,
    some dir⟩)

/-- Descriptor built by loop 4 for a `@refine` variable. -/
def mkFileRefine (hints : List (List Char × List Char)) (v : List Char) :
    List Char × SpecInput :=
  (v, ⟨v, "file".data, none, none, lookupL v hints,
    some "PromptSpec file (.promptspec.md)".data, some "@refine".data⟩)

/-- Descriptor built by loop 5 for a bare placeholder. -/
def mkText (hints : List (List Char × List Char)) (v : List Char) :
    List Char × SpecInput :=
  (v, ⟨v, if isMultilineHintB v then "multiline".data else "text".data, none,
    none, lookupL v hints, none, some "\x7b\x7bvariable\x7d\x7d".data⟩)

/-- The five collection loops of `scan_spec` as stages (loop 3 is one stage
per file-accepting pattern, in source order). -/
def scanStages (text : List Char) (hints : List (List Char × List Char)) :
    List Stage :=
  [(fun _ => false, (matchPairs text).map (mkSelect hints)),
   (fun _ => false, (ifDirectiveVars text).map (mkBool hints)),
   (fun _ => false, (fileVarsOf (embedPaths text)).map (mkFileRich hints "@embed".data)),
   (fun _ => false, (fileVarsOf (summarizePaths text)).map (mkFileRich hints "@summarize".data)),
   (fun _ => false, (fileVarsOf (compressPaths text)).map (mkFileRich hints "@compress".data)),
   (fun _ => false, (fileVarsOf (extractPaths text)).map (mkFileRich hints "@extract".data)),
   (fun _ => false, (fileVarsOf (refinePaths text)).map (mkFileRefine hints)),
   (fun v => decide (v ∈ internalVars), (mustacheVars text).map (mkText hints))]

/-- `scan_spec` — scan a spec and extract structured metadata. -/
def scanSpecChars (text : List Char) : SpecMetadata :=
  let hints := extractNoteHints text
  ⟨(match searchFirst headingM text with
    | some cap => stripChars cap
    | none => []),
   extractDescription text,
   runStages (scanStages text hints) [],
   (searchFirst execM text).map buildExecution,
   dedupKeys [] ((runFinditer (dirWordM "@prompt".data) text).map Prod.fst),
   dedupKeys [] (runFinditer (dirNonWsM "@tool".data) text),
   (refinePaths text).filter (fun p => !isVarPath p),
   (embedPaths text).filter (fun p => !isVarPath p) ++
     (summarizePaths text).filter (fun p => !isVarPath p) ++
     (compressPaths text).filter (fun p => !isVarPath p) ++
     (extractPaths text).filter (fun p => !isVarPath p),
   runFinditer assertM text,
   (searchFirst noteM text).isSome⟩

/-- `scan_spec` on a Lean string. -/
def scan_spec (s : String) : SpecMetadata := scanSpecChars s.data

/-!
## Root-text segmenter (`controller.py`)
-/

/-- `re.match(r"^@prompt\b", line.strip())`: the stripped line starts with
`@prompt` followed by a word boundary. -/
def isPromptLine (l : List Char) : Bool :=
  let st := stripChars l
  litAt "@prompt".data st &&
    (match st.drop 7 with
     | [] => true
     | c :: _ => !isWordCharB c)

/-- Prefix collection of `_extract_root_text`: drop each `@execute` line and
its nonempty continuation lines beginning with a space or tab; keep every
other line.  The flag records that an `@execute` block is being skipped. -/
def preScan : Bool → List (List Char) → List (List Char)
  | _, [] => []
  | skipping, l :: ls =>
    if skipping && (match l with
        | c :: _ => c = ' ' || c = '\t'
        | [] => false) then
      preScan true ls
    else if litAt "@execute".data (stripChars l) then preScan true ls
    else l :: preScan false ls

/-- Skip condition of the suffix scan: a line that is empty or starts with
whitespace extends the last `@prompt` block. -/
def extendsBlock (l : List Char) : Bool :=
  match l with
  | [] => true
  | c :: _ => isPyWhite c

/-- The `@prompt` line indices of a spec. -/
def promptIdxs (lines : List (List Char)) : List Nat :=
  (List.range lines.length).filter (fun i => isPromptLine (lines.getD i []))

/-- `_extract_root_text`: root prefix and suffix around the `@prompt`
blocks; both results are stripped. -/
def extractRootChars (text : List Char) : List Char × List Char :=
  let lines := splitNl text
  match promptIdxs lines with
  | [] => ([], [])
  | fi :: rest =>
    let li := (fi :: rest).getLastD 0
    (stripChars (joinNl (preScan false (lines.take fi))),
     stripChars (joinNl ((lines.drop (li + 1)).dropWhile extendsBlock)))

/-- The `"\n\n"`-join of `[prefix?, text, suffix?]` used by the cascade. -/
def joinParts (pfx t sfx : List Char) : List Char :=
  joinSep "\n\n".data
    ((if pfx ≠ [] then [pfx] else []) ++ [t] ++ (if sfx ≠ [] then [sfx] else []))

/-- `_cascade_root_context`: prepend/append the root context to each named
prompt; no-op when both parts are empty or for a single `"default"` entry. -/
def cascadeChars (prompts : List (List Char × List Char)) (pfx sfx : List Char) :
    List (List Char × List Char) :=
  if pfx = [] && sfx = [] then prompts
  else if prompts.map Prod.fst = ["default".data] then prompts
  else prompts.map (fun p => (p.1, joinParts pfx p.2 sfx))

/-!
## Spec-worded reference definitions

For refinement claims a second definition transcribes the claim's words, to
be compared with the definition taken from the source.
-/

/-- Transcribed from the claim: the root prefix "consists of all lines
preceding the first `@prompt` directive with the `@execute` header line and
its indented continuation lines removed and every other directive and
plain-text line preserved verbatim" — the lines joined back with newlines,
nothing stripped. -/
def rootPreSpec (text : List Char) : List Char :=
  let lines := splitNl text
  match promptIdxs lines with
  | [] => []
  | fi :: _ => joinNl (preScan false (lines.take fi))

/-- Transcribed from the claim: the root suffix "consists of all lines from
the first line after the last `@prompt` directive that is both non-blank and
non-indented through end-of-text" — joined back with newlines, nothing
stripped. -/
def rootSufSpec (text : List Char) : List Char :=
  let lines := splitNl text
  match promptIdxs lines with
  | [] => []
  | fi :: rest =>
    joinNl ((lines.drop ((fi :: rest).getLastD 0 + 1)).dropWhile extendsBlock)

/-- First pass transcribed from the claim's words for annotation blocks: "a
run of indented non-empty lines terminated by the first blank or
non-indented line", recording the index of the block's last line and its
space-joined text. -/
def claimNoteScan : Option (Nat × List (List Char)) → Nat → List (List Char) →
    List (Nat × List Char)
  | none, _, [] => []
  | some (last, acc), _, [] => [(last, joinSpace acc.reverse)]
  | none, i, l :: ls =>
    if litAt "@note".data (stripChars l) then claimNoteScan (some (i, [])) (i + 1) ls
    else claimNoteScan none (i + 1) ls
  | some (last, acc), i, l :: ls =>
    if litAt "  ".data l && stripChars l ≠ [] then
      claimNoteScan (some (i, stripChars l :: acc)) (i + 1) ls
    else
      (last, joinSpace acc.reverse) ::
        (if litAt "@note".data (stripChars l) then claimNoteScan (some (i, [])) (i + 1) ls
         else claimNoteScan none (i + 1) ls)

/-- Transcribed from the claim: the first block whose last line is at most 5
lines before the placeholder's line (`1 ≤ idx - last ≤ 5`). -/
def claimFirstBlock (blocks : List (Nat × List Char)) (idx : Nat) :
    Option (List Char) :=
  match blocks with
  | [] => none
  | (last, t) :: rest =>
    if last < idx && idx ≤ last + 5 then some (t.take 200)
    else claimFirstBlock rest idx

/-- Second pass under the claim's reading. -/
def claimHintsPass (blocks : List (Nat × List Char)) :
    Nat → List (List Char) → List (List Char × List Char) →
    List (List Char × List Char)
  | _, [], h => h
  | i, l :: ls, h =>
    claimHintsPass blocks (i + 1) ls
      ((runFinditer mustacheM l).foldl
        (fun h2 v =>
          if (lookupL v h2).isSome then h2
          else
            match claimFirstBlock blocks i with
            | some t => h2 ++ [(v, t)]
            | none => h2)
        h)

/-- The note-hint map transcribed from the claim's words. -/
def noteHintsClaim (lines : List (List Char)) : List (List Char × List Char) :=
  claimHintsPass (claimNoteScan none 0 lines) 0 lines []

/-- Like `execM` but capturing the raw suffix after the strategy name, for
the claim-worded reading of the parameter block. -/
def execHeaderM (b : Bool) (s : List Char) :
    Option ((List Char × List Char) × List Char) :=
  if !b then none
  else
    let s1 := s.dropWhile isSpaceTab
    if litAt "@execute".data s1 then
      let s2 := s1.drop 8
      if s2.takeWhile isPyWhite = [] then none
      else
        let s3 := s2.dropWhile isPyWhite
        let strat := s3.takeWhile (fun c => !isPyWhite c)
        if strat = [] then none
        else
          let s4 := s3.dropWhile (fun c => !isPyWhite c)
          some ((strat, s4), s4)
    else none

/-- Transcribed from the claim: parse only the first `@execute` header, map
`"type"` to the strategy name, add one entry per subsequent indented line
containing `key: value`, and stop at the first line that is not indented
(indented = begins with a space or tab). -/
def executionSpecClaim (text : List Char) :
    Option (List (List Char × ConfigVal)) :=
  (searchFirst execHeaderM text).map (fun m =>
    (((splitNl m.2).drop 1).takeWhile
        (fun l => match l with
          | c :: _ => c = ' ' || c = '\t'
          | [] => false)).foldl
      (fun config l => configStep config (stripChars l))
      [("type".data, ConfigVal.vstr m.1)])

/-!
## Parametric input families used by the theorems
-/

/-- Note-proximity family: a two-line `@note` block, `k` plain separator
lines, then a `{{v}}` placeholder. -/
def noteFamily (k : Nat) : List (List Char) :=
  "@note".data :: "  T".data ::
    (List.replicate k "x".data ++ ["\x7b\x7bv\x7d\x7d".data])

/-- A `"literal" ==>` case line. -/
def caseLineChars (c : List Char) : List Char :=
  '"' :: c ++ ('"' :: ' ' :: '=' :: '=' :: '>' :: [])

/-- The case block of a `@match` family: one case line per literal, each
followed by a newline, optionally terminated by a wildcard line. -/
def caseBlock (cs : List (List Char)) (wild : Bool) : List Char :=
  cs.foldr (fun c acc => caseLineChars c ++ '\n' :: acc)
    (if wild then "_ ==>\n".data else [])

/-- `@match` family: a single `@match v` directive followed by its case
lines. -/
def matchFamilyText (v : List Char) (cs : List (List Char)) (wild : Bool) :
    List Char :=
  "@match ".data ++ v ++ '\n' :: caseBlock cs wild

/-- The block of two-space-indented lines following an `@execute` header. -/
def blobOf (ps : List (List Char)) (tail : List Char) : List Char :=
  ps.foldr (fun p acc => '\n' :: (' ' :: ' ' :: p) ++ acc) tail

/-- `@execute` family: a header line followed by two-space-indented
parameter lines and an arbitrary non-indented tail. -/
def execFamilyText (strat : List Char) (params : List (List Char))
    (tail : List Char) : List Char :=
  "@execute ".data ++ strat ++ blobOf params tail

/-- A parameter/case line is clean when it is nonempty, has no newline or
carriage return, and neither starts nor ends with whitespace. -/
def cleanLine (p : List Char) : Bool :=
  decide (p ≠ []) && !isPyWhite (p.headD ' ') && !isPyWhite (p.reverse.headD ' ') &&
    decide ('\n' ∉ p) && decide ('\r' ∉ p)

/-- `finditerAux` from a non-line-start position, with full fuel. -/
def runFindF {α : Type} (m : Bool → List Char → Option (α × List Char))
    (s : List Char) : List α :=
  finditerAux m (s.length + 1) false s

/-- A matcher strictly consumes input on success. -/
def MDecr {α : Type} (m : Bool → List Char → Option (α × List Char)) : Prop :=
  ∀ b s a s2, m b s = some (a, s2) → s2.length < s.length

/-- A matcher anchored at line starts (`^` patterns). -/
def MAnchored {α : Type} (m : Bool → List Char → Option (α × List Char)) : Prop :=
  ∀ s, m false s = none

/-!
# Theorems

## List helper lemmas
-/

theorem length_dropWhile_le {α : Type} (p : α → Bool) (l : List α) :
    (l.dropWhile p).length ≤ l.length := by
  induction l with
  | nil => simp [List.dropWhile]
  | cons c t ih =>
    by_cases h : p c
    · simp only [List.dropWhile, h]
      exact Nat.le_succ_of_le ih
    · simp [List.dropWhile, h]

theorem length_dropWhile_lt {α : Type} (p : α → Bool) (l : List α)
    (h : l.takeWhile p ≠ []) : (l.dropWhile p).length < l.length := by
  cases l with
  | nil => simp [List.takeWhile] at h
  | cons c t =>
    by_cases hc : p c
    · simp only [List.dropWhile, hc]
      exact Nat.lt_succ_of_le (length_dropWhile_le p t)
    · simp [List.takeWhile, hc] at h

theorem takeWhile_app {α : Type} (p : α → Bool) (a : List α) (c : α) (t : List α)
    (ha : ∀ x ∈ a, p x = true) (hc : p c = false) :
    ((a ++ c :: t).takeWhile p) = a := by
  induction a with
  | nil => simp [List.takeWhile, hc]
  | cons x xs ih =>
    have hx : p x = true := ha x (by simp)
    simp only [List.cons_append, List.takeWhile, hx]
    exact congrArg (List.cons x) (ih (fun y hy => ha y (by simp [hy])))

theorem dropWhile_app {α : Type} (p : α → Bool) (a : List α) (c : α) (t : List α)
    (ha : ∀ x ∈ a, p x = true) (hc : p c = false) :
    ((a ++ c :: t).dropWhile p) = c :: t := by
  induction a with
  | nil => simp [List.dropWhile, hc]
  | cons x xs ih =>
    have hx : p x = true := ha x (by simp)
    simp only [List.cons_append, List.dropWhile, hx]
    exact ih (fun y hy => ha y (by simp [hy]))

theorem takeWhile_all {α : Type} (p : α → Bool) (a : List α)
    (ha : ∀ x ∈ a, p x = true) : a.takeWhile p = a := by
  induction a with
  | nil => rfl
  | cons x xs ih =>
    have hx : p x = true := ha x (by simp)
    simp only [List.takeWhile, hx]
    rw [ih (fun y hy => ha y (by simp [hy]))]

theorem dropWhile_all {α : Type} (p : α → Bool) (a : List α)
    (ha : ∀ x ∈ a, p x = true) : a.dropWhile p = [] := by
  induction a with
  | nil => rfl
  | cons x xs ih =>
    have hx : p x = true := ha x (by simp)
    simp only [List.dropWhile, hx]
    exact ih (fun y hy => ha y (by simp [hy]))

theorem dropWhile_head_false {α : Type} (p : α → Bool) (c : α) (t : List α)
    (hc : p c = false) : ((c :: t).dropWhile p) = c :: t := by
  simp [List.dropWhile, hc]

theorem takeWhile_head_false {α : Type} (p : α → Bool) (c : α) (t : List α)
    (hc : p c = false) : ((c :: t).takeWhile p) = [] := by
  simp [List.takeWhile, hc]

theorem litAt_append (n r : List Char) : litAt n (n ++ r) = true := by
  induction n with
  | nil => rfl
  | cons c t ih => simp [litAt, ih]

theorem litAt_length_le (n s : List Char) (h : litAt n s = true) :
    n.length ≤ s.length := by
  induction n generalizing s with
  | nil => simp
  | cons c t ih =>
    cases s with
    | nil => simp [litAt] at h
    | cons x xs =>
      simp only [litAt, Bool.and_eq_true] at h
      simpa using ih xs h.2

/-- Reverse-side `dropWhile` is the identity when the last element fails the
predicate. -/
theorem revDropWhile_eq_self {α : Type} (p : α → Bool) (q : List α) (a : α)
    (ha : p a = false) : ((q ++ [a]).reverse.dropWhile p).reverse = q ++ [a] := by
  rw [List.reverse_append]
  simp only [List.reverse_cons, List.reverse_nil, List.nil_append, List.cons_append,
    List.nil_append]
  rw [dropWhile_head_false p a q.reverse ha]
  simp

/-!
## Finditer driver lemmas
-/

/-- Any two sufficient fuels run `finditerAux` to the same result. -/
theorem finditerAux_fuel {α : Type}
    (m : Bool → List Char → Option (α × List Char)) (hm : MDecr m) :
    ∀ (f g : Nat) (b : Bool) (s : List Char), s.length < f → s.length < g →
      finditerAux m f b s = finditerAux m g b s := by
  intro f
  induction f with
  | zero => intro g b s h _; omega
  | succ f ih =>
    intro g b s hf hg
    cases g with
    | zero => omega
    | succ g =>
      cases s with
      | nil => simp [finditerAux]
      | cons c rest =>
        cases hms : m b (c :: rest) with
        | some pr =>
          obtain ⟨a, s2⟩ := pr
          have hlt := hm b (c :: rest) a s2 hms
          simp only [List.length_cons] at hlt hf hg
          simp only [finditerAux, hms]
          rw [ih g false s2 (by omega) (by omega)]
        | none =>
          simp only [List.length_cons] at hf hg
          simp only [finditerAux, hms]
          rw [ih g (c = '\n') rest (by omega) (by omega)]

theorem runFinditer_nil {α : Type}
    (m : Bool → List Char → Option (α × List Char)) : runFinditer m [] = [] := rfl

theorem runFindF_nil {α : Type}
    (m : Bool → List Char → Option (α × List Char)) : runFindF m [] = [] := rfl

/-- Step lemma: a match at the head of the scan. -/
theorem runFinditer_cons_match {α : Type}
    (m : Bool → List Char → Option (α × List Char)) (hm : MDecr m)
    (c : Char) (s : List Char) (a : α) (s2 : List Char)
    (h : m true (c :: s) = some (a, s2)) :
    runFinditer m (c :: s) = a :: runFindF m s2 := by
  have hlt := hm true (c :: s) a s2 h
  simp only [List.length_cons] at hlt
  simp only [runFinditer, runFindF, List.length_cons, finditerAux, h]
  rw [finditerAux_fuel m hm (s.length + 1) (s2.length + 1) false s2 (by omega)
    (by omega)]

/-- Step lemma: no match at a line-start head. -/
theorem runFinditer_cons_nomatch {α : Type}
    (m : Bool → List Char → Option (α × List Char))
    (c : Char) (s : List Char) (h : m true (c :: s) = none) :
    runFinditer m (c :: s) =
      if c = '\n' then runFinditer m s else runFindF m s := by
  simp only [runFinditer, runFindF, List.length_cons, finditerAux, h]
  by_cases hc : c = '\n' <;> simp [hc]

/-- Step lemma: an anchored matcher never fires away from a line start. -/
theorem runFindF_cons {α : Type}
    (m : Bool → List Char → Option (α × List Char)) (ha : MAnchored m)
    (c : Char) (s : List Char) :
    runFindF m (c :: s) =
      if c = '\n' then runFinditer m s else runFindF m s := by
  simp only [runFindF, runFinditer, List.length_cons, finditerAux, ha (c :: s)]
  by_cases hc : c = '\n' <;> simp [hc]

/-- Walking an anchored matcher over the rest of a line reaches the next
line start. -/
theorem runFindF_walk {α : Type}
    (m : Bool → List Char → Option (α × List Char)) (ha : MAnchored m)
    (l : List Char) (hl : '\n' ∉ l) (rest : List Char) :
    runFindF m (l ++ '\n' :: rest) = runFinditer m rest := by
  induction l with
  | nil =>
    rw [List.nil_append, runFindF_cons m ha]
    simp
  | cons c t ih =>
    have hc : c ≠ '\n' := fun hh => hl (by simp [hh])
    rw [List.cons_append, runFindF_cons m ha, if_neg hc]
    exact ih (fun hh => hl (by simp [hh]))

/-- Walking an anchored matcher over a final line without newline ends the
scan. -/
theorem runFindF_last {α : Type}
    (m : Bool → List Char → Option (α × List Char)) (ha : MAnchored m)
    (l : List Char) (hl : '\n' ∉ l) : runFindF m l = [] := by
  induction l with
  | nil => rfl
  | cons c t ih =>
    have hc : c ≠ '\n' := fun hh => hl (by simp [hh])
    rw [runFindF_cons m ha, if_neg hc]
    exact ih (fun hh => hl (by simp [hh]))

/-- Skipping a whole line on which the anchored matcher fails. -/
theorem runFinditer_skip_line {α : Type}
    (m : Bool → List Char → Option (α × List Char))
    (ha : MAnchored m) (l : List Char) (hl : '\n' ∉ l) (rest : List Char)
    (hfail : m true (l ++ '\n' :: rest) = none) :
    runFinditer m (l ++ '\n' :: rest) = runFinditer m rest := by
  cases l with
  | nil =>
    rw [List.nil_append, runFinditer_cons_nomatch m '\n' rest hfail]
    simp
  | cons c t =>
    have hc : c ≠ '\n' := fun hh => hl (by simp [hh])
    rw [List.cons_append] at hfail ⊢
    rw [runFinditer_cons_nomatch m c (t ++ '\n' :: rest) hfail, if_neg hc]
    exact runFindF_walk m ha t (fun hh => hl (by simp [hh])) rest

/-- Failing on a final line without newline ends the scan. -/
theorem runFinditer_skip_last {α : Type}
    (m : Bool → List Char → Option (α × List Char))
    (ha : MAnchored m) (l : List Char) (hl : '\n' ∉ l)
    (hfail : m true l = none) : runFinditer m l = [] := by
  cases l with
  | nil => rfl
  | cons c t =>
    have hc : c ≠ '\n' := fun hh => hl (by simp [hh])
    rw [runFinditer_cons_nomatch m c t hfail, if_neg hc]
    exact runFindF_last m ha t (fun hh => hl (by simp [hh]))

/-- The head of the match list needs no fuel normalisation. -/
theorem runFinditer_head_match {α : Type}
    (m : Bool → List Char → Option (α × List Char))
    (c : Char) (s : List Char) (a : α) (s2 : List Char)
    (h : m true (c :: s) = some (a, s2)) :
    (runFinditer m (c :: s)).head? = some a := by
  simp [runFinditer, finditerAux, h]

/-!
## Matcher properties
-/

theorem dirWordM_anchored (kw : List Char) : MAnchored (dirWordM kw) :=
  fun s => by simp [dirWordM]

theorem dirNonWsM_anchored (kw : List Char) : MAnchored (dirNonWsM kw) :=
  fun s => by simp [dirNonWsM]

theorem fileDirM_anchored (kw : List Char) : MAnchored (fileDirM kw) :=
  fun s => by simp [fileDirM]

theorem caseM_anchored : MAnchored caseM := fun s => by simp [caseM]

theorem wildM_anchored : MAnchored wildM := fun s => by simp [wildM]

theorem execM_anchored : MAnchored execM := fun s => by simp [execM]

theorem dirWordM_decr (kw : List Char) : MDecr (dirWordM kw) := by
  intro b s a s2 h
  simp only [dirWordM] at h
  split_ifs at h with h0 h1 h2 h3
  rw [Option.some_inj] at h
  injection h with hcap hs2
  rw [← hs2]
  have hlt : (((s.dropWhile isSpaceTab).drop kw.length |>.dropWhile
      isPyWhite).dropWhile isWordCharB).length <
      (((s.dropWhile isSpaceTab).drop kw.length).dropWhile isPyWhite).length :=
    length_dropWhile_lt _ _ h3
  have h4 : ((((s.dropWhile isSpaceTab).drop kw.length)).dropWhile
      isPyWhite).length ≤ ((s.dropWhile isSpaceTab).drop kw.length).length :=
    length_dropWhile_le _ _
  have h5 : ((s.dropWhile isSpaceTab).drop kw.length).length ≤
      (s.dropWhile isSpaceTab).length := by
    simp [List.length_drop]
  have h6 : (s.dropWhile isSpaceTab).length ≤ s.length :=
    length_dropWhile_le _ _
  omega

theorem caseM_decr : MDecr caseM := by
  intro b s a s2 h
  simp only [caseM] at h
  split_ifs at h with h0 h1 h2 h3 h4
  rw [Option.some_inj] at h
  injection h with hcap hs2
  rw [← hs2]
  have e1 : s.dropWhile isSpaceTab ≠ [] := by
    intro he; rw [he] at h1; simp [litAt] at h1
  have e2 : (s.dropWhile isSpaceTab).length ≤ s.length := length_dropWhile_le _ _
  have e3 : ((s.dropWhile isSpaceTab).drop 1).length <
      (s.dropWhile isSpaceTab).length := by
    cases hc : s.dropWhile isSpaceTab with
    | nil => exact absurd hc e1
    | cons x xs => simp
  have e4 : (((s.dropWhile isSpaceTab).drop 1).dropWhile (· ≠ '"')).length ≤
      ((s.dropWhile isSpaceTab).drop 1).length := length_dropWhile_le _ _
  have e5 : ((((s.dropWhile isSpaceTab).drop 1).dropWhile (· ≠ '"')).drop
      1).length < (((s.dropWhile isSpaceTab).drop 1).dropWhile (· ≠ '"')).length := by
    have hne : ((s.dropWhile isSpaceTab).drop 1).dropWhile (· ≠ '"') ≠ [] := by
      intro he; rw [he] at h3; simp [litAt] at h3
    cases hc : ((s.dropWhile isSpaceTab).drop 1).dropWhile (· ≠ '"') with
    | nil => exact absurd hc hne
    | cons x xs => simp
  have e6 : (((((s.dropWhile isSpaceTab).drop 1).dropWhile (· ≠ '"')).drop
      1).dropWhile isPyWhite).length ≤
      ((((s.dropWhile isSpaceTab).drop 1).dropWhile (· ≠ '"')).drop 1).length :=
    length_dropWhile_le _ _
  have e7 : ((((((s.dropWhile isSpaceTab).drop 1).dropWhile (· ≠ '"')).drop
      1).dropWhile isPyWhite).drop 3).length ≤
      (((((s.dropWhile isSpaceTab).drop 1).dropWhile (· ≠ '"')).drop
        1).dropWhile isPyWhite).length := by
    simp [List.length_drop]
  omega

/-!
## Classification loop invariants
-/

theorem dedupInputs_spec (skip : List Char → Bool) :
    ∀ (cs : List (List Char × SpecInput)),
      (∀ c ∈ cs, (c.2).name = c.1) →
      ∀ seen : List (List Char),
        (∀ x ∈ seen, x ∈ (dedupInputs skip cs seen).1) ∧
        (∀ d ∈ (dedupInputs skip cs seen).2,
          d.name ∉ seen ∧ skip d.name = false ∧
            d.name ∈ (dedupInputs skip cs seen).1 ∧ ∃ c ∈ cs, d = c.2) ∧
        ((dedupInputs skip cs seen).2.map SpecInput.name).Nodup ∧
        (∀ c ∈ cs, skip c.1 = false →
          c.1 ∈ seen ∨ ∃ d ∈ (dedupInputs skip cs seen).2, d.name = c.1) := by
  intro cs
  induction cs with
  | nil =>
    intro _ seen
    exact ⟨fun x hx => hx, fun d hd => absurd hd (List.not_mem_nil d),
      List.nodup_nil, fun c hc _ => absurd hc (List.not_mem_nil c)⟩
  | cons c0 cs ih =>
    obtain ⟨k, d0⟩ := c0
    intro hks seen
    have hd0 : d0.name = k := hks (k, d0) (by simp)
    have hks2 : ∀ c ∈ cs, (c.2).name = c.1 := fun c hc => hks c (by simp [hc])
    by_cases hskip : k ∈ seen ∨ skip k = true
    · have hred : dedupInputs skip ((k, d0) :: cs) seen = dedupInputs skip cs seen := by
        simp only [dedupInputs]
        rw [if_pos]
        rcases hskip with h | h
        · simp [h]
        · simp [h]
      rw [hred]
      obtain ⟨i1, i2, i3, i4⟩ := ih hks2 seen
      refine ⟨i1, ?_, i3, ?_⟩
      · intro d hd
        obtain ⟨p1, p2, p3, c, hc, hdc⟩ := i2 d hd
        exact ⟨p1, p2, p3, c, by simp [hc], hdc⟩
      · intro c hc hskc
        rcases List.mem_cons.mp hc with hceq | hc2
        · left
          rcases hskip with h | h
          · rw [hceq]; exact h
          · rw [hceq] at hskc; rw [hskc] at h; exact absurd h (by simp)
        · exact i4 c hc2 hskc
    · push_neg at hskip
      obtain ⟨hkseen, hskk⟩ := hskip
      have hskkf : skip k = false := by
        cases hsk : skip k
        · rfl
        · exact absurd hsk hskk
      have hred : dedupInputs skip ((k, d0) :: cs) seen =
          ((dedupInputs skip cs (k :: seen)).1,
           d0 :: (dedupInputs skip cs (k :: seen)).2) := by
        simp only [dedupInputs]
        rw [if_neg]
        simp [hkseen, hskkf]
      rw [hred]
      obtain ⟨i1, i2, i3, i4⟩ := ih hks2 (k :: seen)
      refine ⟨?_, ?_, ?_, ?_⟩
      · intro x hx
        exact i1 x (by simp [hx])
      · intro d hd
        rcases List.mem_cons.mp hd with hdeq | hd2
        · refine ⟨?_, ?_, ?_, ⟨(k, d0), by simp, hdeq⟩⟩ <;> rw [hdeq, hd0]
          · exact hkseen
          · exact hskkf
          · exact i1 k (by simp)
        · obtain ⟨p1, p2, p3, c, hc, hdc⟩ := i2 d hd2
          exact ⟨fun hmem => p1 (by simp [hmem]), p2, p3, c, by simp [hc], hdc⟩
      · simp only [List.map_cons, List.nodup_cons]
        constructor
        · intro hmem
          rw [List.mem_map] at hmem
          obtain ⟨d, hd, hdn⟩ := hmem
          obtain ⟨p1, _, _, _⟩ := i2 d hd
          rw [hdn, hd0] at p1
          exact p1 (by simp)
        · exact i3
      · intro c hc hskc
        rcases List.mem_cons.mp hc with hceq | hc2
        · right
          exact ⟨d0, by simp, by rw [hceq]; exact hd0⟩
        · rcases i4 c hc2 hskc with hmem | ⟨d, hd, hdn⟩
          · rcases List.mem_cons.mp hmem with hm1 | hm2
            · exact Or.inr ⟨d0, by simp, by rw [hm1]; exact hd0⟩
            · exact Or.inl hm2
          · exact Or.inr ⟨d, by simp [hd], hdn⟩

theorem runStages_spec :
    ∀ (stages : List Stage) (seen : List (List Char)),
      (∀ stg ∈ stages, ∀ c ∈ stg.2, (c.2).name = c.1) →
      ((runStages stages seen).map SpecInput.name).Nodup ∧
      (∀ d ∈ runStages stages seen, d.name ∉ seen ∧
        ∃ stg ∈ stages, stg.1 d.name = false ∧ ∃ c ∈ stg.2, d = c.2) := by
  intro stages
  induction stages with
  | nil =>
    intro seen _
    exact ⟨List.nodup_nil, fun d hd => absurd hd (List.not_mem_nil d)⟩
  | cons stg rest ih =>
    obtain ⟨sk, cs⟩ := stg
    intro seen hks
    have hks1 : ∀ c ∈ cs, (c.2).name = c.1 := hks (sk, cs) (by simp)
    have hksr : ∀ s2 ∈ rest, ∀ c ∈ s2.2, (c.2).name = c.1 :=
      fun s2 hs2 => hks s2 (by simp [hs2])
    obtain ⟨d1, d2, d3, _⟩ := dedupInputs_spec sk cs hks1 seen
    obtain ⟨r1, r2⟩ := ih (dedupInputs sk cs seen).1 hksr
    have hrun : runStages ((sk, cs) :: rest) seen =
        (dedupInputs sk cs seen).2 ++
          runStages rest (dedupInputs sk cs seen).1 := rfl
    rw [hrun]
    constructor
    · rw [List.map_append, List.nodup_append]
      refine ⟨d3, r1, ?_⟩
      intro x hx hy
      rw [List.mem_map] at hx hy
      obtain ⟨d, hd, hdx⟩ := hx
      obtain ⟨e, he, hex⟩ := hy
      obtain ⟨_, _, hfin, _⟩ := d2 d hd
      obtain ⟨hnot, _⟩ := r2 e he
      rw [hex, ← hdx] at hnot
      exact hnot hfin
    · intro d hd
      rcases List.mem_append.mp hd with hd1 | hd2
      · obtain ⟨p1, p2, _, c, hc, hdc⟩ := d2 d hd1
        exact ⟨p1, (sk, cs), by simp, p2, c, hc, hdc⟩
      · obtain ⟨hnot, stg2, hstg2, hrest⟩ := r2 d hd2
        refine ⟨fun hmem => hnot (d1 d.name hmem), stg2, by simp [hstg2], hrest⟩

/-- The first stage places a descriptor for each of its non-skipped keys. -/
theorem runStages_first_total (sk : List Char → Bool)
    (cs : List (List Char × SpecInput)) (rest : List Stage)
    (hks : ∀ c ∈ cs, (c.2).name = c.1)
    (c : List Char × SpecInput) (hc : c ∈ cs) (hsk : sk c.1 = false) :
    ∃ d ∈ runStages ((sk, cs) :: rest) [], d.name = c.1 ∧ ∃ c2 ∈ cs, d = c2.2 := by
  obtain ⟨_, d2, _, d4⟩ := dedupInputs_spec sk cs hks []
  rcases d4 c hc hsk with hmem | ⟨d, hd, hdn⟩
  · exact absurd hmem (List.not_mem_nil c.1)
  · obtain ⟨_, _, _, c2, hc2, hdc2⟩ := d2 d hd
    have hrun : runStages ((sk, cs) :: rest) [] =
        (dedupInputs sk cs []).2 ++ runStages rest (dedupInputs sk cs []).1 := rfl
    exact ⟨d, by rw [hrun]; exact List.mem_append_left _ hd, hdn, c2, hc2, hdc2⟩

/-- A nodup list whose members all equal `d` and which contains `d` is
`[d]`. -/
theorem nodup_all_eq_singleton {α : Type} (l : List α) (d : α)
    (hn : l.Nodup) (hall : ∀ x ∈ l, x = d) (hm : d ∈ l) : l = [d] := by
  cases l with
  | nil => exact absurd hm (List.not_mem_nil d)
  | cons x xs =>
    have hx : x = d := hall x (by simp)
    cases xs with
    | nil => rw [hx]
    | cons y ys =>
      have hy : y = d := hall y (by simp)
      rw [List.nodup_cons] at hn
      exact absurd (by rw [hx, ← hy]; simp : x ∈ y :: ys) hn.1

/-- With nodup names, two descriptors sharing a name are equal. -/
theorem nodup_name_inj (l : List SpecInput)
    (h : (l.map SpecInput.name).Nodup) (d d2 : SpecInput)
    (hd : d ∈ l) (hd2 : d2 ∈ l) (hn : d.name = d2.name) : d = d2 := by
  induction l with
  | nil => exact absurd hd (by simp)
  | cons x xs ih =>
    simp only [List.map_cons, List.nodup_cons] at h
    obtain ⟨hx, hxs⟩ := h
    rcases List.mem_cons.mp hd with rfl | hdm
    · rcases List.mem_cons.mp hd2 with rfl | hd2m
      · rfl
      · exact absurd (hn ▸ List.mem_map_of_mem SpecInput.name hd2m) hx
    · rcases List.mem_cons.mp hd2 with rfl | hd2m
      · exact absurd (hn ▸ List.mem_map_of_mem SpecInput.name hdm) hx
      · exact ih hxs hdm hd2m

/-- Every candidate key equals the built descriptor's name, for all eight
stages of `scan_spec`. -/
theorem scanStages_keys (text : List Char) (hints : List (List Char × List Char)) :
    ∀ stg ∈ scanStages text hints, ∀ c ∈ stg.2, (c.2).name = c.1 := by
  intro stg hstg c hc
  simp only [scanStages, List.mem_cons] at hstg
  rcases hstg with rfl | rfl | rfl | rfl | rfl | rfl | rfl | rfl | h
  · rw [List.mem_map] at hc
    obtain ⟨m, _, hcm⟩ := hc
    rw [← hcm]; simp [mkSelect]
  · rw [List.mem_map] at hc
    obtain ⟨m, _, hcm⟩ := hc
    rw [← hcm]; simp [mkBool]
  · rw [List.mem_map] at hc
    obtain ⟨m, _, hcm⟩ := hc
    rw [← hcm]; simp [mkFileRich]
  · rw [List.mem_map] at hc
    obtain ⟨m, _, hcm⟩ := hc
    rw [← hcm]; simp [mkFileRich]
  · rw [List.mem_map] at hc
    obtain ⟨m, _, hcm⟩ := hc
    rw [← hcm]; simp [mkFileRich]
  · rw [List.mem_map] at hc
    obtain ⟨m, _, hcm⟩ := hc
    rw [← hcm]; simp [mkFileRich]
  · rw [List.mem_map] at hc
    obtain ⟨m, _, hcm⟩ := hc
    rw [← hcm]; simp [mkFileRefine]
  · rw [List.mem_map] at hc
    obtain ⟨m, _, hcm⟩ := hc
    rw [← hcm]; simp [mkText]
  · exact absurd h (List.not_mem_nil stg)

/-!
## Claim theorems (C1–C6, C10)
-/

/-- C1: for every input text the inputs list of `scan_spec` contains each
variable name at most once; and whenever a variable is both the subject of a
`@match` directive and a bare `{{V}}` placeholder it has exactly one
descriptor, of kind `select`. -/
theorem scan_inputs_unique_select (text : List Char) :
    ((scanSpecChars text).inputs.map SpecInput.name).Nodup ∧
    ∀ v, v ∈ matchDirectiveVars text → v ∈ mustacheVars text →
      ((scanSpecChars text).inputs.filter
        (fun d => decide (d.name = v))).length = 1 ∧
      ((scanSpecChars text).inputs.filter
        (fun d => decide (d.name = v))).all
        (fun d => decide (d.input_type = "select".data)) = true := by
  have hinp : (scanSpecChars text).inputs =
      runStages (scanStages text (extractNoteHints text)) [] := rfl
  have hks := scanStages_keys text (extractNoteHints text)
  obtain ⟨hnd, hmem⟩ := runStages_spec (scanStages text (extractNoteHints text)) [] hks
  refine ⟨by rw [hinp]; exact hnd, ?_⟩
  intro v h1 h2
  simp only [matchDirectiveVars, List.mem_map] at h1
  obtain ⟨m, hm, hmv⟩ := h1
  have hstg1 : scanStages text (extractNoteHints text) =
      (fun _ => false, (matchPairs text).map (mkSelect (extractNoteHints text))) ::
        (scanStages text (extractNoteHints text)).tail := rfl
  have hks1 : ∀ c ∈ (matchPairs text).map (mkSelect (extractNoteHints text)),
      (c.2).name = c.1 :=
    hks _ (by rw [hstg1]; exact List.mem_cons_self _ _)
  obtain ⟨d0, hd0mem, hd0name, c2, hc2, hd0c2⟩ :=
    runStages_first_total (fun _ => false)
      ((matchPairs text).map (mkSelect (extractNoteHints text)))
      (scanStages text (extractNoteHints text)).tail hks1
      (mkSelect (extractNoteHints text) m)
      (List.mem_map_of_mem _ hm) rfl
  rw [← hstg1] at hd0mem
  rw [← hinp] at hd0mem
  have hd0v : d0.name = v := by
    rw [hd0name]
    simp [mkSelect, hmv]
  have hd0sel : d0.input_type = "select".data := by
    rw [List.mem_map] at hc2
    obtain ⟨m2, _, hm2⟩ := hc2
    rw [hd0c2, ← hm2]
    simp [mkSelect]
  rw [hinp]
  have hfil : (runStages (scanStages text (extractNoteHints text)) []).filter
      (fun d => decide (d.name = v)) = [d0] := by
    apply nodup_all_eq_singleton
    · exact ((hnd.of_map).filter _)
    · intro d hd
      rw [List.mem_filter] at hd
      obtain ⟨hdmem, hdname⟩ := hd
      exact nodup_name_inj _ hnd d d0 hdmem (hinp ▸ hd0mem)
        (by rw [of_decide_eq_true hdname, hd0v])
    · rw [List.mem_filter]
      exact ⟨hinp ▸ hd0mem, by rw [hd0v]; simp⟩
  refine ⟨?_, ?_⟩
  · rw [hfil]
    rfl
  · rw [hfil]
    simp [hd0sel]

/-- C1 witness: the uniqueness invariant on a directive-free text with a
repeated placeholder, and the select case on a `@match`-plus-placeholder
text. -/
theorem scan_inputs_unique_select_witness :
    ((scanSpecChars "\x7b\x7ba\x7d\x7d \x7b\x7ba\x7d\x7d".data).inputs.map
      SpecInput.name).Nodup ∧
    ((scanSpecChars "@match tone\n\"a\" ==>\nUse \x7b\x7btone\x7d\x7d".data).inputs.map
      SpecInput.name).Nodup ∧
    ("tone".data ∈ matchDirectiveVars
        "@match tone\n\"a\" ==>\nUse \x7b\x7btone\x7d\x7d".data ∧
     "tone".data ∈ mustacheVars
        "@match tone\n\"a\" ==>\nUse \x7b\x7btone\x7d\x7d".data ∧
     ((scanSpecChars "@match tone\n\"a\" ==>\nUse \x7b\x7btone\x7d\x7d".data).inputs.filter
        (fun d => decide (d.name = "tone".data))).length = 1 ∧
     ((scanSpecChars "@match tone\n\"a\" ==>\nUse \x7b\x7btone\x7d\x7d".data).inputs.filter
        (fun d => decide (d.name = "tone".data))).all
        (fun d => decide (d.input_type = "select".data)) = true) :=
  ⟨(scan_inputs_unique_select "\x7b\x7ba\x7d\x7d \x7b\x7ba\x7d\x7d".data).1,
   (scan_inputs_unique_select
      "@match tone\n\"a\" ==>\nUse \x7b\x7btone\x7d\x7d".data).1,
   by decide, by decide,
   ((scan_inputs_unique_select
      "@match tone\n\"a\" ==>\nUse \x7b\x7btone\x7d\x7d".data).2 "tone".data
      (by decide) (by decide)).1,
   ((scan_inputs_unique_select
      "@match tone\n\"a\" ==>\nUse \x7b\x7btone\x7d\x7d".data).2 "tone".data
      (by decide) (by decide)).2⟩

/-- C2 counterexample: the reserved name `state` used as the subject of a
`@match` directive does produce an input descriptor, so the denylist is not
applied at every precedence level. -/
theorem scan_internal_match_counterexample :
    "state".data ∈ internalVars ∧
    (scanSpecChars "@match state".data).inputs.map SpecInput.name =
      ["state".data] :=
  ⟨by decide, by decide⟩

/-- C2 (amended): a reserved internal variable name is excluded only at the
bare-placeholder fallback level: if it is not claimed by a `@match`, `@if`,
or file-accepting directive, `scan_spec` produces no descriptor for it. -/
theorem scan_internal_fallback_only (text v : List Char)
    (hv : v ∈ internalVars)
    (h1 : v ∉ matchDirectiveVars text)
    (h2 : v ∉ ifDirectiveVars text)
    (h3 : v ∉ fileDirectiveVars text) :
    v ∉ (scanSpecChars text).inputs.map SpecInput.name := by
  intro hmem
  have hinp : (scanSpecChars text).inputs =
      runStages (scanStages text (extractNoteHints text)) [] := rfl
  have hks := scanStages_keys text (extractNoteHints text)
  obtain ⟨_, hprov⟩ := runStages_spec (scanStages text (extractNoteHints text)) [] hks
  rw [hinp, List.mem_map] at hmem
  obtain ⟨d, hd, hdv⟩ := hmem
  obtain ⟨_, stg, hstg, hskip, c, hc, hdc⟩ := hprov d hd
  have hcname : (c.2).name = c.1 := hks stg hstg c hc
  have hkv : c.1 = v := by rw [← hcname, ← hdc, hdv]
  simp only [scanStages, List.mem_cons] at hstg
  rcases hstg with rfl | rfl | rfl | rfl | rfl | rfl | rfl | rfl | habs
  · rw [List.mem_map] at hc
    obtain ⟨m, hm, hcm⟩ := hc
    apply h1
    simp only [matchDirectiveVars, List.mem_map]
    refine ⟨m, hm, ?_⟩
    rw [← hkv, ← hcm]
    simp [mkSelect]
  · rw [List.mem_map] at hc
    obtain ⟨m, hm, hcm⟩ := hc
    apply h2
    have : m = v := by rw [← hkv, ← hcm]; simp [mkBool]
    rw [← this]
    exact hm
  · rw [List.mem_map] at hc
    obtain ⟨m, hm, hcm⟩ := hc
    apply h3
    have hmv : m = v := by rw [← hkv, ← hcm]; simp [mkFileRich]
    rw [← hmv]
    simp only [fileDirectiveVars, List.mem_append]
    exact Or.inl (Or.inl (Or.inl (Or.inl hm)))
  · rw [List.mem_map] at hc
    obtain ⟨m, hm, hcm⟩ := hc
    apply h3
    have hmv : m = v := by rw [← hkv, ← hcm]; simp [mkFileRich]
    rw [← hmv]
    simp only [fileDirectiveVars, List.mem_append]
    exact Or.inl (Or.inl (Or.inl (Or.inr hm)))
  · rw [List.mem_map] at hc
    obtain ⟨m, hm, hcm⟩ := hc
    apply h3
    have hmv : m = v := by rw [← hkv, ← hcm]; simp [mkFileRich]
    rw [← hmv]
    simp only [fileDirectiveVars, List.mem_append]
    exact Or.inl (Or.inl (Or.inr hm))
  · rw [List.mem_map] at hc
    obtain ⟨m, hm, hcm⟩ := hc
    apply h3
    have hmv : m = v := by rw [← hkv, ← hcm]; simp [mkFileRich]
    rw [← hmv]
    simp only [fileDirectiveVars, List.mem_append]
    exact Or.inl (Or.inr hm)
  · rw [List.mem_map] at hc
    obtain ⟨m, hm, hcm⟩ := hc
    apply h3
    have hmv : m = v := by rw [← hkv, ← hcm]; simp [mkFileRefine]
    rw [← hmv]
    simp only [fileDirectiveVars, List.mem_append]
    exact Or.inr hm
  · have hskip2 : decide (d.name ∈ internalVars) = false := hskip
    rw [hdv] at hskip2
    rw [decide_eq_false_iff_not] at hskip2
    exact hskip2 hv
  · exact absurd habs (List.not_mem_nil stg)

/-- C2 witness for the amended claim. -/
theorem scan_internal_fallback_only_witness :
    "state".data ∈ internalVars ∧
    "state".data ∉ matchDirectiveVars "Use \x7b\x7bstate\x7d\x7d here".data ∧
    "state".data ∉ ifDirectiveVars "Use \x7b\x7bstate\x7d\x7d here".data ∧
    "state".data ∉ fileDirectiveVars "Use \x7b\x7bstate\x7d\x7d here".data ∧
    "state".data ∉ (scanSpecChars "Use \x7b\x7bstate\x7d\x7d here".data).inputs.map
      SpecInput.name :=
  ⟨by decide, by decide, by decide, by decide,
    scan_internal_fallback_only _ "state".data (by decide) (by decide)
      (by decide) (by decide)⟩

/-- C3: the worked example — strategy with an integer-coerced parameter, one
tool name, one text-kind input named `problem`. -/
theorem scan_worked_example :
    (scan_spec "@execute tree-of-thought\n  max_depth: 3\n\nSolve \x7b\x7bproblem\x7d\x7d.\n\n@tool search_web\n  Search the web.\n  - query: string (required)\n").execution =
      some [("type".data, ConfigVal.vstr "tree-of-thought".data),
            ("max_depth".data, ConfigVal.vint 3)] ∧
    (scan_spec "@execute tree-of-thought\n  max_depth: 3\n\nSolve \x7b\x7bproblem\x7d\x7d.\n\n@tool search_web\n  Search the web.\n  - query: string (required)\n").tool_names =
      ["search_web".data] ∧
    (scan_spec "@execute tree-of-thought\n  max_depth: 3\n\nSolve \x7b\x7bproblem\x7d\x7d.\n\n@tool search_web\n  Search the web.\n  - query: string (required)\n").inputs =
      [⟨"problem".data, "text".data, none, none, none, none,
        some "\x7b\x7bvariable\x7d\x7d".data⟩] :=
  ⟨by decide, by decide, by decide⟩

/-- C4: `scan_spec` is total by construction in this embedding (every
function is a total Lean function); on the empty string every field of the
returned record is empty or default. -/
theorem scan_empty_defaults :
    scan_spec "" = ⟨[], [], [], none, [], [], [], [], [], false⟩ := by
  decide

/-- C5: `cascade` is the identity when both context parts are empty or when
the prompts map has exactly one entry under the key `"default"`; otherwise
it maps every entry to the `"\n\n"`-join of `[prefix?, text, suffix?]`,
preserving key order. -/
theorem cascade_cases (prompts : List (List Char × List Char))
    (pfx sfx : List Char) :
    (pfx = [] ∧ sfx = [] → cascadeChars prompts pfx sfx = prompts) ∧
    (prompts.map Prod.fst = ["default".data] →
      cascadeChars prompts pfx sfx = prompts) ∧
    (¬(pfx = [] ∧ sfx = []) → prompts.map Prod.fst ≠ ["default".data] →
      cascadeChars prompts pfx sfx =
        prompts.map (fun p => (p.1, joinParts pfx p.2 sfx))) := by
  refine ⟨?_, ?_, ?_⟩
  · rintro ⟨hp, hs⟩
    simp [cascadeChars, hp, hs]
  · intro hd
    by_cases hps : pfx = [] ∧ sfx = []
    · simp [cascadeChars, hps.1, hps.2]
    · have : (pfx = [] && sfx = []) = false := by
        rcases not_and_or.mp hps with h | h <;> simp [h]
      simp [cascadeChars, this, hd]
  · intro h1 h2
    have : (pfx = [] && sfx = []) = false := by
      rcases not_and_or.mp h1 with h | h <;> simp [h]
    simp [cascadeChars, this, h2]

/-- C5 witness: the two worked examples of the claim. -/
theorem cascade_cases_witness :
    cascadeChars [("generate".data, "X".data), ("evaluate".data, "Y".data)]
        "P".data "S".data =
      [("generate".data, "P\n\nX\n\nS".data),
       ("evaluate".data, "P\n\nY\n\nS".data)] ∧
    cascadeChars [("default".data, "Z".data)] "P".data "S".data =
      [("default".data, "Z".data)] := by
  constructor
  · have h := (cascade_cases [("generate".data, "X".data),
      ("evaluate".data, "Y".data)] "P".data "S".data).2.2
    rw [h (by decide) (by decide)]
    decide
  · exact (cascade_cases [("default".data, "Z".data)] "P".data "S".data).2.1
      (by decide)

/-- C6 counterexample: the claim's verbatim reading of the prefix differs
from the code, which strips the joined prefix — a blank line before the
first `@prompt` is dropped. -/
theorem extract_root_verbatim_counterexample :
    rootPreSpec "Intro\n\n@prompt g\n  body".data = "Intro\n".data ∧
    (extractRootChars "Intro\n\n@prompt g\n  body".data).1 = "Intro".data ∧
    "Intro\n".data ≠ "Intro".data :=
  ⟨by decide, by decide, by decide⟩

/-- C6 (amended): `extract_root` returns `("", "")` when there is no
`@prompt` line; otherwise it returns the claim's verbatim prefix/suffix with
surrounding whitespace stripped. -/
theorem extract_root_amended (text : List Char) :
    (promptIdxs (splitNl text) = [] → extractRootChars text = ([], [])) ∧
    extractRootChars text =
      (stripChars (rootPreSpec text), stripChars (rootSufSpec text)) := by
  constructor
  · intro h
    simp [extractRootChars, h]
  · simp only [extractRootChars, rootPreSpec, rootSufSpec]
    cases promptIdxs (splitNl text) with
    | nil => rfl
    | cons fi rest => rfl

/-- C6 witness for the amended claim. -/
theorem extract_root_amended_witness :
    promptIdxs (splitNl "Hello".data) = [] ∧
    extractRootChars "Hello".data = ([], []) ∧
    extractRootChars "A\n\n@prompt g\nB".data =
      (stripChars (rootPreSpec "A\n\n@prompt g\nB".data),
       stripChars (rootSufSpec "A\n\n@prompt g\nB".data)) :=
  ⟨by decide, (extract_root_amended "Hello".data).1 (by decide),
    (extract_root_amended "A\n\n@prompt g\nB".data).2⟩

/-- Helper for C10: the description loop yields nothing when a directive
line is hit before any title line. -/
theorem descAux_directive_before_title :
    ∀ (ls : List (List Char)) (i : Nat), i < ls.length →
      litAt "@".data (stripChars (ls.getD i [])) = true →
      (∀ j, j < i → litAt "# ".data (stripChars (ls.getD j [])) = false) →
      descAux false ls = [] := by
  intro ls
  induction ls with
  | nil => intro i hi _ _; simp at hi
  | cons l rest ih =>
    intro i hi hat hbefore
    cases i with
    | zero =>
      simp only [List.getD_cons_zero] at hat
      have hnt : litAt "# ".data (stripChars l) = false := by
        cases hst : stripChars l with
        | nil => rw [hst] at hat; simp [litAt] at hat
        | cons c cs =>
          rw [hst] at hat
          simp only [litAt, Bool.and_eq_true] at hat
          have : c = '@' := by
            have := hat.1
            simpa [eq_comm] using this
          simp [litAt, this]
      simp only [descAux, hnt, Bool.not_false, hat]
      simp
    | succ j =>
      have h0 : litAt "# ".data (stripChars l) = false := by
        have := hbefore 0 (Nat.succ_pos j)
        simpa using this
      by_cases hat0 : litAt "@".data (stripChars l) = true
      · simp [descAux, h0, hat0]
      · have hat0f : litAt "@".data (stripChars l) = false := by
          cases h : litAt "@".data (stripChars l)
          · rfl
          · exact absurd h hat0
        have hred : descAux false (l :: rest) = descAux false rest := by
          simp [descAux, h0, hat0f]
        rw [hred]
        refine ih j (by simpa using hi) (by simpa using hat) ?_
        intro j2 hj2
        have := hbefore (j2 + 1) (by omega)
        simpa using this

/-- C10: if a directive line precedes the first title heading, the extracted
description is empty regardless of anything after the title. -/
theorem description_stops_at_directive (text : List Char) (i : Nat)
    (hi : i < (splitLines text).length)
    (hat : litAt "@".data (stripChars ((splitLines text).getD i [])) = true)
    (hbefore : ∀ j, j < i →
      litAt "# ".data (stripChars ((splitLines text).getD j [])) = false) :
    (scanSpecChars text).description = [] := by
  have hdesc : (scanSpecChars text).description = extractDescription text := rfl
  rw [hdesc]
  unfold extractDescription
  rw [descAux_directive_before_title (splitLines text) i hi hat hbefore]
  rfl

/-!
## C7: note-to-variable proximity
-/

/-- In the closed-note state, separator lines open no new range. -/
theorem noteScan_none_skip (m : Nat) : ∀ (j : Nat),
    noteScan none j (List.replicate m "x".data ++
      ["\x7b\x7bv\x7d\x7d".data]) = [] := by
  induction m with
  | zero =>
    intro j
    rfl
  | succ m ih =>
    intro j
    rw [List.replicate_succ, List.cons_append]
    have hstep : noteScan none j ("x".data ::
        (List.replicate m "x".data ++ ["\x7b\x7bv\x7d\x7d".data])) =
        noteScan none (j + 1)
          (List.replicate m "x".data ++ ["\x7b\x7bv\x7d\x7d".data]) := rfl
    rw [hstep]
    exact ih (j + 1)

/-- The note ranges of the family: one block, exclusive end 2, text `"T"`. -/
theorem noteScan_family (k : Nat) :
    noteScan none 0 (noteFamily k) = [(0, 2, "T".data)] := by
  have step12 : ∀ L : List (List Char),
      noteScan none 0 ("@note".data :: "  T".data :: L) =
        noteScan (some (0, ["T".data])) 2 L := fun L => rfl
  unfold noteFamily
  rw [step12]
  cases k with
  | zero => decide
  | succ m =>
    rw [List.replicate_succ, List.cons_append]
    have step3 : ∀ L : List (List Char),
        noteScan (some (0, ["T".data])) 2 ("x".data :: L) =
          (0, 2, "T".data) :: noteScan none 3 L := fun L => rfl
    rw [step3, noteScan_none_skip m 3]

/-- Separator lines contain no placeholder, so the second pass walks over
them only increasing the line index. -/
theorem hintsPass_skip_x (ranges : List (Nat × Nat × List Char)) (m : Nat) :
    ∀ (j : Nat) (h : List (List Char × List Char)),
    hintsPass ranges j (List.replicate m "x".data ++
      ["\x7b\x7bv\x7d\x7d".data]) h =
      hintsPass ranges (j + m) ["\x7b\x7bv\x7d\x7d".data] h := by
  have hmus : runFinditer mustacheM "x".data = [] := by decide
  induction m with
  | zero => intro j h; simp
  | succ m ih =>
    intro j h
    rw [List.replicate_succ, List.cons_append]
    simp only [hintsPass]
    have hx : hintLine ranges j h "x".data = h := by
      simp [hintLine, hmus]
    rw [hx, ih (j + 1) h]
    have hidx : j + 1 + m = j + (m + 1) := by omega
    rw [hidx]
    rfl

/-- C7 counterexample, refuting both diverging clauses of the claim.  First:
with the two-line note block and five plain separator lines, the placeholder
sits 6 lines after the block's last line; the claim's 5-line last-line window
attaches nothing, but the code attaches the note text.  Second: a blank line
does not terminate a block in the code (content after it still joins, and
the extent grows), while the claim-worded blocks end at the first blank
line. -/
theorem note_hint_window_counterexample :
    (lookupL "v".data (noteHintsLines (noteFamily 5)) = some "T".data ∧
     lookupL "v".data (noteHintsClaim (noteFamily 5)) = none) ∧
    (noteHintsLines ["@note".data, "  A".data, [], "  B".data, "x".data,
        "\x7b\x7bv\x7d\x7d".data] = [("v".data, "A B".data)] ∧
     noteHintsClaim ["@note".data, "  A".data, [], "  B".data, "x".data,
        "\x7b\x7bv\x7d\x7d".data] = [("v".data, "A".data)]) :=
  ⟨⟨by decide, by decide⟩, ⟨by decide, by decide⟩⟩

/-- C7 (amended): an annotation block is the run of lines after an `@note`
line that are each two-space-indented or blank — blank lines extend the
block without contributing text, trailing blanks included — ending
exclusively at the first other line, index `e`; a placeholder on 0-based
line `i` receives a description exactly when some block has `e ≤ i ≤ e + 5`
(at most 6 lines after the block's last line), the first such block in
source order winning; the description is the space-join of the block's
stripped non-blank lines truncated to 200 characters, regardless of which
precedence rule classified the variable.  Conjuncts: the `k`-separator
family attaches iff `k ≤ 5`; a blank line inside a block joins the content
around it; six trailing blanks stretch the window; of two qualifying blocks
the first wins; a 300-character block text is truncated to 200; the hint
lands on a `boolean` (`@if`) and on a `select` (`@match`) descriptor
alike. -/
theorem note_hint_window_amended :
    (∀ k, lookupL "v".data (noteHintsLines (noteFamily k)) =
      if k ≤ 5 then some "T".data else none) ∧
    extractNoteHints "@note\n  A\n\n  B\nx\n\x7b\x7bv\x7d\x7d".data =
      [("v".data, "A B".data)] ∧
    extractNoteHints "@note\n  T\n\n\n\n\n\n\n\x7b\x7bv\x7d\x7d".data =
      [("v".data, "T".data)] ∧
    extractNoteHints "@note\n  A\n@note\n  B\n\x7b\x7bv\x7d\x7d".data =
      [("v".data, "A".data)] ∧
    lookupL "v".data (extractNoteHints ("@note\n  ".data ++
      List.replicate 300 'a' ++ "\n\x7b\x7bv\x7d\x7d".data)) =
      some (List.replicate 200 'a') ∧
    (scanSpecChars "@note\n  T\n@if flag\nUse \x7b\x7bflag\x7d\x7d".data).inputs =
      [⟨"flag".data, "boolean".data, none, some "false".data, some "T".data,
        none, some "@if".data⟩] ∧
    (scanSpecChars
        "@note\n  T\n@match tone\n\"a\" ==>\nUse \x7b\x7btone\x7d\x7d".data).inputs =
      [⟨"tone".data, "select".data, some ["a".data], none, some "T".data,
        none, some "@match".data⟩] := by
  refine ⟨?_, by decide, by decide, by decide, by decide, by decide, by decide⟩
  intro k
  unfold noteHintsLines
  rw [noteScan_family k]
  have hn3 : runFinditer mustacheM "\x7b\x7bv\x7d\x7d".data = ["v".data] := by
    decide
  unfold noteFamily
  have e12 : ∀ L : List (List Char),
      hintsPass [(0, 2, "T".data)] 0 ("@note".data :: "  T".data :: L) [] =
        hintsPass [(0, 2, "T".data)] 2 L [] := fun L => rfl
  rw [e12, hintsPass_skip_x [(0, 2, "T".data)] k 2 []]
  have etail : hintsPass [(0, 2, "T".data)] (2 + k)
      ["\x7b\x7bv\x7d\x7d".data] [] =
      hintLine [(0, 2, "T".data)] (2 + k) [] "\x7b\x7bv\x7d\x7d".data := rfl
  rw [etail]
  simp only [hintLine, hn3, List.foldl_cons, List.foldl_nil]
  have hlook : (lookupL "v".data ([] : List (List Char × List Char))).isSome =
      false := rfl
  rw [hlook]
  simp only [Bool.false_eq_true, if_false]
  simp only [firstHintRange, firstHintRange]
  by_cases hk : k ≤ 5
  · have hcond : (decide (2 ≤ 2 + k) && decide (2 + k ≤ 2 + 5)) = true := by
      simp only [Bool.and_eq_true, decide_eq_true_eq]
      omega
    rw [hcond, if_pos rfl]
    rw [if_pos hk]
    decide
  · have hcond : (decide (2 ≤ 2 + k) && decide (2 + k ≤ 2 + 5)) = false := by
      have hgt : ¬(2 + k ≤ 2 + 5) := by omega
      simp [hgt]
    rw [hcond]
    rw [if_neg hk]
    simp only [Bool.false_eq_true, if_false, firstHintRange]
    rfl

/-!
## C8: execute-header parameter parsing
-/

theorem takeWhile_cons_pos {α : Type} (p : α → Bool) (a : α) (l : List α)
    (h : p a = true) : ((a :: l).takeWhile p) = a :: l.takeWhile p := by
  simp [List.takeWhile, h]

theorem dropWhile_cons_pos {α : Type} (p : α → Bool) (a : α) (l : List α)
    (h : p a = true) : ((a :: l).dropWhile p) = l.dropWhile p := by
  simp [List.dropWhile, h]

theorem cleanLine_spec (p : List Char) (h : cleanLine p = true) :
    p ≠ [] ∧ isPyWhite (p.headD ' ') = false ∧
      isPyWhite (p.reverse.headD ' ') = false ∧ '\n' ∉ p ∧ '\r' ∉ p := by
  simp only [cleanLine, Bool.and_eq_true, decide_eq_true_eq,
    Bool.not_eq_true'] at h
  exact ⟨h.1.1.1.1, h.1.1.1.2, h.1.1.2, h.1.2, h.2⟩

theorem stripChars_cons_white (c : Char) (s : List Char)
    (hc : isPyWhite c = true) : stripChars (c :: s) = stripChars s := by
  simp [stripChars, List.dropWhile, hc]

theorem stripChars_eq_self (s : List Char) (d1 d2 : Char)
    (h1 : isPyWhite (s.headD d1) = false)
    (h2 : isPyWhite (s.reverse.headD d2) = false) : stripChars s = s := by
  have hdw : s.dropWhile isPyWhite = s := by
    cases s with
    | nil => rfl
    | cons c t => exact dropWhile_head_false _ _ _ (by simpa using h1)
  have hdwr : s.reverse.dropWhile isPyWhite = s.reverse := by
    cases hrev : s.reverse with
    | nil => rfl
    | cons r rr =>
      rw [hrev] at h2
      exact dropWhile_head_false _ _ _ (by simpa using h2)
  unfold stripChars
  rw [hdw, hdwr, List.reverse_reverse]

theorem cleanLine_strip (p : List Char) (h : cleanLine p = true) :
    stripChars p = p := by
  obtain ⟨_, h1, h2, _, _⟩ := cleanLine_spec p h
  exact stripChars_eq_self p ' ' ' ' h1 h2

theorem cleanLine_strip_indent (p : List Char) (h : cleanLine p = true) :
    stripChars (' ' :: ' ' :: p) = p := by
  rw [stripChars_cons_white ' ' (' ' :: p) (by decide),
    stripChars_cons_white ' ' p (by decide), cleanLine_strip p h]

theorem rev_headD_append (x y : List Char) (d : Char) (hy : y ≠ []) :
    ((x ++ y).reverse).headD d = (y.reverse).headD d := by
  rw [List.reverse_append]
  cases hry : y.reverse with
  | nil => exact absurd (by simpa using congrArg List.reverse hry) hy
  | cons a as => simp

theorem blobOf_ne_nil (q : List Char) (qs : List (List Char)) (tail : List Char) :
    blobOf (q :: qs) tail ≠ [] := by
  simp [blobOf]

theorem blob_rev_head (qs : List (List Char)) :
    qs ≠ [] → (∀ p ∈ qs, cleanLine p = true) →
    isPyWhite ((blobOf qs []).reverse.headD 'x') = false := by
  induction qs with
  | nil => intro h _; exact absurd rfl h
  | cons r rs ih =>
    intro _ hclean
    obtain ⟨hr0, _, hr2, _, _⟩ := cleanLine_spec r (hclean r (by simp))
    by_cases hrs : rs = []
    · subst hrs
      have hsh : blobOf [r] [] = ('\n' :: ' ' :: ' ' :: []) ++ r := by
        simp [blobOf]
      rw [hsh, rev_headD_append _ _ _ hr0]
      cases hrev : r.reverse with
      | nil => exact absurd (by simpa using congrArg List.reverse hrev) hr0
      | cons a as =>
        rw [hrev] at hr2
        simpa using hr2
    · have hsh : blobOf (r :: rs) [] =
          (('\n' :: ' ' :: ' ' :: []) ++ r) ++ blobOf rs [] := by
        cases rs with
        | nil => exact absurd rfl hrs
        | cons a b => simp [blobOf]
      have hbne : blobOf rs [] ≠ [] := by
        cases rs with
        | nil => exact absurd rfl hrs
        | cons a b => exact blobOf_ne_nil a b []
      rw [hsh, rev_headD_append _ _ _ hbne]
      exact ih hrs (fun p hp => hclean p (List.mem_cons_of_mem r hp))

/-- `slGo` splits at a newline when the current segment has no terminator. -/
theorem slGo_append (l : List Char) : ∀ (acc rest : List Char),
    (∀ c ∈ l, c ≠ '\n' ∧ c ≠ '\r') →
    slGo acc (l ++ '\n' :: rest) =
      (acc.reverse ++ l) :: (if rest = [] then [] else slGo [] rest) := by
  induction l with
  | nil =>
    intro acc rest _
    cases rest with
    | nil => simp [slGo]
    | cons r rs => simp [slGo]
  | cons c l2 ih =>
    intro acc rest hl
    have hc := hl c (by simp)
    cases hsp : l2 ++ '\n' :: rest with
    | nil => exact absurd hsp (by simp)
    | cons x xs =>
      have hstep : slGo acc (c :: x :: xs) = slGo (c :: acc) (x :: xs) := by
        simp only [slGo]
        rw [if_neg hc.1, if_neg hc.2]
      rw [List.cons_append, hsp, hstep, ← hsp,
        ih (c :: acc) rest (fun d hd => hl d (by simp [hd]))]
      simp

/-- `slGo` on a terminator-free list yields a single line. -/
theorem slGo_noTerm (l : List Char) : ∀ (acc : List Char),
    (∀ c ∈ l, c ≠ '\n' ∧ c ≠ '\r') → slGo acc l = [acc.reverse ++ l] := by
  induction l with
  | nil => intro acc _; simp [slGo]
  | cons c l2 ih =>
    intro acc hl
    have hc := hl c (by simp)
    cases l2 with
    | nil =>
      have : (c = '\n' || c = '\r') = false := by simp [hc.1, hc.2]
      simp [slGo, this]
    | cons x xs =>
      have hstep : slGo acc (c :: x :: xs) = slGo (c :: acc) (x :: xs) := by
        simp only [slGo]
        rw [if_neg hc.1, if_neg hc.2]
      rw [hstep, ih (c :: acc) (fun d hd => hl d (by simp [hd]))]
      simp

/-- Splitting the indented block into its lines. -/
theorem slGo_blob (ps : List (List Char)) : ∀ (head : List Char),
    (∀ c ∈ head, c ≠ '\n' ∧ c ≠ '\r') →
    (∀ p ∈ ps, cleanLine p = true) →
    slGo [] (head ++ blobOf ps []) =
      head :: ps.map (fun p => ' ' :: ' ' :: p) := by
  induction ps with
  | nil =>
    intro head hhead _
    rw [show blobOf [] [] = [] from rfl, List.append_nil,
      slGo_noTerm head [] hhead]
    simp
  | cons q qs ih =>
    intro head hhead hclean
    have hq := cleanLine_spec q (hclean q (by simp))
    have hsh : head ++ blobOf (q :: qs) [] =
        head ++ '\n' :: ((' ' :: ' ' :: q) ++ blobOf qs []) := by
      simp [blobOf]
    rw [hsh, slGo_append head [] _ hhead]
    have hne : (' ' :: ' ' :: q) ++ blobOf qs [] ≠ [] := by simp
    rw [if_neg hne]
    have hq2 : ∀ c ∈ ' ' :: ' ' :: q, c ≠ '\n' ∧ c ≠ '\r' := by
      intro c hcm
      rcases List.mem_cons.mp hcm with rfl | hcm2
      · exact ⟨by decide, by decide⟩
      · rcases List.mem_cons.mp hcm2 with rfl | hcm3
        · exact ⟨by decide, by decide⟩
        · exact ⟨fun hh => hq.2.2.2.1 (hh ▸ hcm3), fun hh => hq.2.2.2.2 (hh ▸ hcm3)⟩
    have := ih (' ' :: ' ' :: q) hq2 (fun p hp => hclean p (by simp [hp]))
    rw [List.cons_append] at this ⊢
    rw [this]
    simp

/-- Fold with per-line stripping equals the plain fold on clean lines. -/
theorem foldl_strip_eq (qs : List (List Char)) :
    (∀ p ∈ qs, cleanLine p = true) →
    ∀ init : List (List Char × ConfigVal),
    qs.foldl (fun cfg p => configStep cfg (stripChars (' ' :: ' ' :: p))) init =
      qs.foldl configStep init := by
  induction qs with
  | nil => intro _ init; rfl
  | cons q qs2 ih =>
    intro hclean init
    simp only [List.foldl_cons]
    rw [cleanLine_strip_indent q (hclean q (by simp))]
    exact ih (fun p hp => hclean p (by simp [hp])) _

/-- One definitional step of `execCont` at a newline. -/
theorem execCont_step (f : Nat) (t : List Char) :
    execCont (f + 1) ('\n' :: t) =
      if t.takeWhile isSpaceTab ≠ [] &&
          !isPyWhite ((t.dropWhile isSpaceTab).headD ' ') then
        ('\n' :: (t.takeWhile isSpaceTab ++
          (t.dropWhile isSpaceTab).takeWhile (· ≠ '\n') ++
            (execCont f ((t.dropWhile isSpaceTab).dropWhile (· ≠ '\n'))).1),
         (execCont f ((t.dropWhile isSpaceTab).dropWhile (· ≠ '\n'))).2)
      else ([], '\n' :: t) := by
  rfl

/-- The parameter-block loop of the execute matcher on the family block. -/
theorem execCont_blob (ps : List (List Char)) : ∀ (tail : List Char) (f : Nat),
    (∀ p ∈ ps, cleanLine p = true) →
    (tail = [] ∨ ∃ t2, tail = '\n' :: t2 ∧ isSpaceTab (t2.headD 'x') = false) →
    (blobOf ps tail).length ≤ f →
    execCont f (blobOf ps tail) = (blobOf ps [], tail) := by
  induction ps with
  | nil =>
    intro tail f _ htail hf
    rcases htail with rfl | ⟨t2, rfl, ht2⟩
    · cases f <;> rfl
    · cases f with
      | zero => simp [blobOf] at hf
      | succ f2 =>
        have hind : t2.takeWhile isSpaceTab = [] := by
          cases t2 with
          | nil => rfl
          | cons c2 t3 =>
            simp only [List.headD_cons] at ht2
            exact takeWhile_head_false _ _ _ ht2
        show execCont (f2 + 1) ('\n' :: t2) = ([], '\n' :: t2)
        simp [execCont, hind]
  | cons q qs ih =>
    intro tail f hclean htail hf
    have hq := cleanLine_spec q (hclean q (by simp))
    have hshape : blobOf (q :: qs) tail =
        '\n' :: (' ' :: ' ' :: (q ++ blobOf qs tail)) := by
      simp [blobOf]
    cases f with
    | zero =>
      rw [hshape] at hf
      simp at hf
    | succ f2 =>
      rw [hshape]
      obtain ⟨c0, q2, hq0⟩ : ∃ c0 q2, q = c0 :: q2 := by
        cases q with
        | nil => exact absurd rfl hq.1
        | cons a b => exact ⟨a, b, rfl⟩
      have hq0w : isPyWhite c0 = false := by
        rw [hq0] at hq
        simpa using hq.2.1
      have hq0st : isSpaceTab c0 = false := by
        cases hc : isSpaceTab c0
        · rfl
        · exfalso
          simp only [isSpaceTab, Bool.or_eq_true, decide_eq_true_eq] at hc
          rcases hc with rfl | rfl <;> simp [isPyWhite] at hq0w
      have hind : (' ' :: ' ' :: (q ++ blobOf qs tail)).takeWhile isSpaceTab =
          [' ', ' '] := by
        rw [takeWhile_cons_pos _ _ _ rfl, takeWhile_cons_pos _ _ _ rfl, hq0,
          List.cons_append, takeWhile_head_false _ _ _ hq0st]
      have hdw : (' ' :: ' ' :: (q ++ blobOf qs tail)).dropWhile isSpaceTab =
          q ++ blobOf qs tail := by
        rw [dropWhile_cons_pos _ _ _ rfl, dropWhile_cons_pos _ _ _ rfl, hq0,
          List.cons_append, dropWhile_head_false _ _ _ hq0st]
      have hqnl : ∀ c ∈ q, (decide (c ≠ '\n')) = true := by
        intro c hcm
        rw [decide_eq_true_eq]
        intro hh
        exact hq.2.2.2.1 (hh ▸ hcm)
      have hblobSplit : (blobOf qs tail = [] ∧ tail = []) ∨
          ∃ bb, blobOf qs tail = '\n' :: bb := by
        cases qs with
        | nil =>
          rcases htail with rfl | ⟨t2, rfl, _⟩
          · exact Or.inl ⟨rfl, rfl⟩
          · exact Or.inr ⟨t2, rfl⟩
        | cons r rs =>
          exact Or.inr ⟨' ' :: ' ' :: (r ++ blobOf rs tail), by simp [blobOf]⟩
      have hcontent : (q ++ blobOf qs tail).takeWhile (· ≠ '\n') = q ∧
          (q ++ blobOf qs tail).dropWhile (· ≠ '\n') = blobOf qs tail := by
        rcases hblobSplit with ⟨hb, _⟩ | ⟨bb, hb⟩
        · rw [hb, List.append_nil]
          exact ⟨takeWhile_all _ _ hqnl, by rw [dropWhile_all _ _ hqnl]⟩
        · rw [hb]
          constructor
          · exact takeWhile_app _ _ _ _ hqnl (by simp)
          · exact dropWhile_app _ _ _ _ hqnl (by simp)
      have hlen : (blobOf qs tail).length ≤ f2 := by
        rw [hshape] at hf
        simp only [List.length_cons, List.length_append] at hf
        omega
      have hrec := ih tail f2 (fun p hp => hclean p (by simp [hp])) htail hlen
      have hhd : (((' ' :: ' ' :: (q ++ blobOf qs tail)).dropWhile
          isSpaceTab).headD ' ') = c0 := by
        rw [hdw, hq0, List.cons_append, List.headD_cons]
      rw [execCont_step, hind, hdw]
      have hcond : ((([' ', ' '] : List Char) ≠ [] : Bool) &&
          !isPyWhite ((q ++ blobOf qs tail).headD ' ')) = true := by
        have : (q ++ blobOf qs tail).headD ' ' = c0 := by
          rw [hq0, List.cons_append, List.headD_cons]
        rw [this, hq0w]
        decide
      rw [if_pos hcond, hcontent.1, hcontent.2, hrec]
      have hout : blobOf (q :: qs) [] =
          '\n' :: ([' ', ' '] ++ (q ++ blobOf qs [])) := by
        simp [blobOf]
      rw [hout]
      simp [List.append_assoc]

theorem headD_irrel {α : Type} (l : List α) (hl : l ≠ []) (a b : α) :
    l.headD a = l.headD b := by
  cases l with
  | nil => exact absurd rfl hl
  | cons x xs => rfl

/-- The execute matcher on the family text. -/
theorem execM_family (strat : List Char) (ps : List (List Char)) (tail : List Char)
    (hs1 : strat ≠ []) (hs2 : ∀ c ∈ strat, isPyWhite c = false)
    (hps : ∀ p ∈ ps, cleanLine p = true)
    (htail : tail = [] ∨ ∃ t2, tail = '\n' :: t2 ∧
      isSpaceTab (t2.headD 'x') = false) :
    execM true (execFamilyText strat ps tail) =
      some ((strat, blobOf ps []), tail) := by
  obtain ⟨c0, sr, hc0⟩ : ∃ c0 sr, strat = c0 :: sr := by
    cases strat with
    | nil => exact absurd rfl hs1
    | cons a b => exact ⟨a, b, rfl⟩
  have hc0w : isPyWhite c0 = false := hs2 c0 (by rw [hc0]; simp)
  have htext : execFamilyText strat ps tail =
      "@execute".data ++ (' ' :: (strat ++ blobOf ps tail)) := by
    show "@execute ".data ++ strat ++ blobOf ps tail = _
    have hsp : ("@execute ".data : List Char) = "@execute".data ++ [' '] := by
      decide
    rw [hsp]
    simp [List.append_assoc]
  have hblob : blobOf ps tail = [] ∨ ∃ bb, blobOf ps tail = '\n' :: bb := by
    cases ps with
    | nil =>
      rcases htail with rfl | ⟨t2, rfl, _⟩
      · exact Or.inl rfl
      · exact Or.inr ⟨t2, rfl⟩
    | cons r rs =>
      exact Or.inr ⟨' ' :: ' ' :: (r ++ blobOf rs tail), by simp [blobOf]⟩
  have hall : ∀ c ∈ strat, (!isPyWhite c) = true := fun c hc => by
    rw [hs2 c hc]; rfl
  have hstrat : (strat ++ blobOf ps tail).takeWhile (fun c => !isPyWhite c) =
        strat ∧
      (strat ++ blobOf ps tail).dropWhile (fun c => !isPyWhite c) =
        blobOf ps tail := by
    rcases hblob with hb | ⟨bb, hb⟩
    · rw [hb, List.append_nil]
      exact ⟨takeWhile_all _ _ hall, by rw [dropWhile_all _ _ hall]⟩
    · rw [hb]
      exact ⟨takeWhile_app _ _ _ _ hall (by decide),
        dropWhile_app _ _ _ _ hall (by decide)⟩
  rw [htext]
  have hs1d : ("@execute".data ++ (' ' :: (strat ++ blobOf ps tail))).dropWhile
      isSpaceTab = "@execute".data ++ (' ' :: (strat ++ blobOf ps tail)) := by
    have hsh : "@execute".data ++ (' ' :: (strat ++ blobOf ps tail)) =
        '@' :: ("execute".data ++ (' ' :: (strat ++ blobOf ps tail))) := rfl
    rw [hsh, dropWhile_head_false _ _ _ (by decide), ← hsh]
  have hlit : litAt "@execute".data
      ("@execute".data ++ (' ' :: (strat ++ blobOf ps tail))) = true :=
    litAt_append _ _
  have hdrop8 : ("@execute".data ++ (' ' :: (strat ++ blobOf ps tail))).drop 8 =
      ' ' :: (strat ++ blobOf ps tail) := by
    rw [show (8 : Nat) = ("@execute".data : List Char).length from by decide,
      List.drop_left]
  have htwW : (' ' :: (strat ++ blobOf ps tail)).takeWhile isPyWhite =
      ' ' :: ((strat ++ blobOf ps tail).takeWhile isPyWhite) :=
    takeWhile_cons_pos _ _ _ (by decide)
  have hdwW : (' ' :: (strat ++ blobOf ps tail)).dropWhile isPyWhite =
      strat ++ blobOf ps tail := by
    rw [dropWhile_cons_pos _ _ _ (by decide), hc0, List.cons_append,
      dropWhile_head_false _ _ _ hc0w, ← List.cons_append, ← hc0]
  simp only [execM, Bool.not_true, Bool.false_eq_true, if_false, hs1d, hlit,
    if_true, hdrop8, htwW, hdwW, hstrat.1, hstrat.2]
  rw [if_neg (by simp), if_neg hs1]
  rw [execCont_blob ps tail (blobOf ps tail).length hps htail (Nat.le_refl _)]

/-- `buildExecution` on the family parameter block. -/
theorem buildExecution_blob (strat : List Char) (ps : List (List Char))
    (hps : ∀ p ∈ ps, cleanLine p = true) :
    buildExecution (strat, blobOf ps []) =
      ps.foldl configStep [("type".data, ConfigVal.vstr strat)] := by
  cases ps with
  | nil => rfl
  | cons q qs =>
    have hq := cleanLine_spec q (hps q (by simp))
    obtain ⟨c0, q2, hq0⟩ : ∃ c0 q2, q = c0 :: q2 := by
      cases q with
      | nil => exact absurd rfl hq.1
      | cons a b => exact ⟨a, b, rfl⟩
    have hq0w : isPyWhite c0 = false := by
      rw [hq0] at hq
      simpa using hq.2.1
    have hstrip : stripChars (blobOf (q :: qs) []) = q ++ blobOf qs [] := by
      have hsh : blobOf (q :: qs) [] =
          '\n' :: ' ' :: ' ' :: (q ++ blobOf qs []) := by simp [blobOf]
      rw [hsh, stripChars_cons_white _ _ (by decide),
        stripChars_cons_white _ _ (by decide),
        stripChars_cons_white _ _ (by decide)]
      apply stripChars_eq_self _ ' ' 'x'
      · rw [hq0, List.cons_append, List.headD_cons]
        exact hq0w
      · cases hqs : qs with
        | nil =>
          rw [show blobOf [] [] = [] from rfl, List.append_nil]
          have hrne : q.reverse ≠ [] := by
            intro hh
            exact hq.1 (by simpa using congrArg List.reverse hh)
          rw [headD_irrel q.reverse hrne 'x' ' ']
          exact hq.2.2.1
        | cons r rs =>
          rw [rev_headD_append _ _ _ (blobOf_ne_nil r rs [])]
          exact blob_rev_head (r :: rs) (by simp)
            (fun p hp => hps p (by rw [hqs]; exact List.mem_cons_of_mem q hp))
    have hnoTerm : ∀ c ∈ q, c ≠ '\n' ∧ c ≠ '\r' := by
      intro c hcm
      exact ⟨fun hh => hq.2.2.2.1 (hh ▸ hcm), fun hh => hq.2.2.2.2 (hh ▸ hcm)⟩
    have hsplit : splitLines (q ++ blobOf qs []) =
        q :: qs.map (fun p => ' ' :: ' ' :: p) := by
      have hsl : splitLines (q ++ blobOf qs []) = slGo [] (q ++ blobOf qs []) := by
        rw [hq0, List.cons_append]
        rfl
      rw [hsl]
      have := slGo_blob qs q hnoTerm (fun p hp => hps p (List.mem_cons_of_mem q hp))
      simpa using this
    show (splitLines (stripChars (blobOf (q :: qs) []))).foldl
        (fun config l => configStep config (stripChars l))
        [("type".data, ConfigVal.vstr strat)] = _
    rw [hstrip, hsplit]
    simp only [List.foldl_cons, List.foldl_map]
    rw [cleanLine_strip q (hps q (by simp))]
    rw [foldl_strip_eq qs (fun p hp => hps p (List.mem_cons_of_mem q hp))]

/-- C8 counterexample: a whitespace-only indented line ends the parameter
block in the code, while the claim's "stops at the first line that is not
indented" would continue past it and collect the following entry. -/
theorem execution_blank_line_counterexample :
    (scan_spec "@execute tot\n   \n  depth: 2\n").execution =
      some [("type".data, ConfigVal.vstr "tot".data)] ∧
    executionSpecClaim "@execute tot\n   \n  depth: 2\n".data =
      some [("type".data, ConfigVal.vstr "tot".data),
            ("depth".data, ConfigVal.vint 2)] :=
  ⟨by decide, by decide⟩

/-- C8 (amended): the execution map is parsed only from the first
`@execute` header; `"type"` maps to the strategy name, each following
indented line that contains a non-whitespace character and a `:` adds one
entry with int-then-float-then-string coercion, and the block stops at the
first line that is blank, whitespace-only, or not indented — no later line
(even an indented `key: value` after the break) contributes. -/
theorem execution_amended (strat : List Char) (ps : List (List Char))
    (tail : List Char)
    (hs1 : strat ≠ []) (hs2 : ∀ c ∈ strat, isPyWhite c = false)
    (hps : ∀ p ∈ ps, cleanLine p = true)
    (htail : tail = [] ∨ ∃ t2, tail = '\n' :: t2 ∧
      isSpaceTab (t2.headD 'x') = false) :
    (scanSpecChars (execFamilyText strat ps tail)).execution =
      some (ps.foldl configStep [("type".data, ConfigVal.vstr strat)]) := by
  have hexec : (scanSpecChars (execFamilyText strat ps tail)).execution =
      (searchFirst execM (execFamilyText strat ps tail)).map buildExecution := rfl
  have hM := execM_family strat ps tail hs1 hs2 hps htail
  have hcons : execFamilyText strat ps tail =
      '@' :: ("execute ".data ++ (strat ++ blobOf ps tail)) := by
    show "@execute ".data ++ strat ++ blobOf ps tail = _
    simp [List.append_assoc]
  rw [hcons] at hM
  have hsearch : searchFirst execM (execFamilyText strat ps tail) =
      some (strat, blobOf ps []) := by
    rw [hcons]
    exact runFinditer_head_match execM _ _ _ _ hM
  rw [hexec, hsearch]
  rw [show Option.map buildExecution (some (strat, blobOf ps [])) =
    some (buildExecution (strat, blobOf ps [])) from rfl]
  rw [buildExecution_blob strat ps hps]

/-- C8 witness for the amended claim. -/
theorem execution_amended_witness :
    (∀ p ∈ [("depth: 2".data : List Char)], cleanLine p = true) ∧
    (scanSpecChars (execFamilyText "tot".data ["depth: 2".data]
        "\nX\n  late: 4".data)).execution =
      some [("type".data, ConfigVal.vstr "tot".data),
            ("depth".data, ConfigVal.vint 2)] := by
  constructor
  · decide
  · have h := execution_amended "tot".data ["depth: 2".data] "\nX\n  late: 4".data
      (by decide) (by decide) (by decide)
      (Or.inr ⟨"X\n  late: 4".data, rfl, by decide⟩)
    rw [h]
    decide

/-!
## C9: `@match` case collection
-/

theorem wordChar_not_white (c : Char) (h : isWordCharB c = true) :
    isPyWhite c = false := by
  cases hw : isPyWhite c
  · rfl
  · exfalso
    simp only [isPyWhite, Bool.or_eq_true, decide_eq_true_eq] at hw
    rcases hw with ((((h1 | h1) | h1) | h1) | h1) | h1 <;>
      (subst h1; exact absurd h (by decide))

theorem caseBlock_cons (c : List Char) (cs : List (List Char)) (wild : Bool) :
    caseBlock (c :: cs) wild = caseLineChars c ++ '\n' :: caseBlock cs wild := rfl

theorem caseLine_noTerm (c : List Char) (hc1 : '\n' ∉ c) (hc2 : '\r' ∉ c) :
    ∀ x ∈ caseLineChars c, x ≠ '\n' ∧ x ≠ '\r' := by
  intro x hx
  rw [show caseLineChars c =
    '"' :: (c ++ ('"' :: ' ' :: '=' :: '=' :: '>' :: [])) from rfl] at hx
  rcases List.mem_cons.mp hx with h | h
  · subst h
    exact ⟨by decide, by decide⟩
  · rcases List.mem_append.mp h with h | h
    · exact ⟨fun hh => hc1 (hh ▸ h), fun hh => hc2 (hh ▸ h)⟩
    · constructor <;> (intro hh; subst hh; revert h; decide)

theorem caseLine_noNl (c : List Char) (hc1 : '\n' ∉ c) :
    '\n' ∉ caseLineChars c := by
  intro hmem
  rw [show caseLineChars c =
    '"' :: (c ++ ('"' :: ' ' :: '=' :: '=' :: '>' :: [])) from rfl] at hmem
  rcases List.mem_cons.mp hmem with h | h
  · exact absurd h (by decide)
  · rcases List.mem_append.mp h with h | h
    · exact hc1 h
    · revert h
      decide

theorem dirWordM_none_of_lit (kw : List Char) (s : List Char)
    (h : litAt kw (s.dropWhile isSpaceTab) = false) :
    dirWordM kw true s = none := by
  simp [dirWordM, h]

theorem caseM_none_of_lit (s : List Char)
    (h : litAt ['"'] (s.dropWhile isSpaceTab) = false) : caseM true s = none := by
  simp [caseM, h]

theorem wildM_none_of_lit (s : List Char)
    (h : litAt ['_'] (s.dropWhile isSpaceTab) = false) : wildM true s = none := by
  simp [wildM, h]

theorem caseLine_head (c : List Char) (rest : List Char) :
    caseLineChars c ++ rest = '"' :: (c ++ ('"' :: ' ' :: '=' :: '=' :: '>' :: rest)) := by
  simp [caseLineChars]

/-- `caseM` matches a whole case line and continues right before its
newline. -/
theorem caseM_caseLine (c rest : List Char) (hc0 : c ≠ []) (hcq : '"' ∉ c) :
    caseM true (caseLineChars c ++ '\n' :: rest) = some (c, '\n' :: rest) := by
  rw [caseLine_head c ('\n' :: rest)]
  have hall : ∀ x ∈ c, (decide (x ≠ '"')) = true := fun x hx => by
    rw [decide_eq_true_eq]
    exact fun hh => hcq (hh ▸ hx)
  have hdw0 : ('"' :: (c ++ ('"' :: ' ' :: '=' :: '=' :: '>' :: '\n' :: rest))).dropWhile
      isSpaceTab = '"' :: (c ++ ('"' :: ' ' :: '=' :: '=' :: '>' :: '\n' :: rest)) :=
    dropWhile_head_false _ _ _ (by decide)
  have hlit1 : litAt ['"']
      ('"' :: (c ++ ('"' :: ' ' :: '=' :: '=' :: '>' :: '\n' :: rest))) = true := rfl
  have hd1 : ('"' :: (c ++ ('"' :: ' ' :: '=' :: '=' :: '>' :: '\n' :: rest))).drop 1 =
      c ++ ('"' :: ' ' :: '=' :: '=' :: '>' :: '\n' :: rest) := rfl
  have htw : (c ++ ('"' :: ' ' :: '=' :: '=' :: '>' :: '\n' :: rest)).takeWhile
      (fun x => decide (x ≠ '"')) = c := takeWhile_app _ _ _ _ hall (by decide)
  have hdq : (c ++ ('"' :: ' ' :: '=' :: '=' :: '>' :: '\n' :: rest)).dropWhile
      (fun x => decide (x ≠ '"')) = '"' :: ' ' :: '=' :: '=' :: '>' :: '\n' :: rest :=
    dropWhile_app _ _ _ _ hall (by decide)
  have hlit2 : litAt ['"'] ('"' :: ' ' :: '=' :: '=' :: '>' :: '\n' :: rest) =
      true := rfl
  have hr3 : ((('"' :: ' ' :: '=' :: '=' :: '>' :: '\n' :: rest : List Char)).drop
      1).dropWhile isPyWhite = '=' :: '=' :: '>' :: '\n' :: rest := rfl
  have hlit3 : litAt "==>".data ('=' :: '=' :: '>' :: '\n' :: rest) = true := rfl
  have hd3 : (('=' :: '=' :: '>' :: '\n' :: rest : List Char)).drop 3 =
      '\n' :: rest := rfl
  simp only [caseM, Bool.not_true, Bool.false_eq_true, if_false, hdw0, hlit1,
    if_true, hd1, htw, hdq, hlit2, hr3, hlit3, hd3]
  rw [if_neg hc0]

/-- Skipping a matcher over the whole case block when it fails on every
line. -/
theorem runFinditer_caseBlock_nil {α : Type}
    (m : Bool → List Char → Option (α × List Char)) (ha : MAnchored m)
    (cs : List (List Char)) (wild : Bool)
    (hcs : ∀ c ∈ cs, '\n' ∉ c)
    (hfail : ∀ c ∈ cs, ∀ rest, m true (caseLineChars c ++ '\n' :: rest) = none)
    (hwild : runFinditer m (caseBlock [] wild) = []) :
    runFinditer m (caseBlock cs wild) = [] := by
  induction cs with
  | nil => exact hwild
  | cons c cs2 ih =>
    rw [caseBlock_cons,
      runFinditer_skip_line m ha (caseLineChars c)
        (caseLine_noNl c (hcs c (by simp))) _ (hfail c (by simp) _)]
    exact ih (fun x hx => hcs x (by simp [hx])) (fun x hx => hfail x (by simp [hx]))

/-- The case matcher collects exactly the case literals of the block. -/
theorem runFinditer_caseM_blob (cs : List (List Char)) (wild : Bool)
    (hcs : ∀ c ∈ cs, c ≠ [] ∧ '"' ∉ c ∧ '\n' ∉ c) :
    runFinditer caseM (caseBlock cs wild) = cs := by
  induction cs with
  | nil =>
    cases wild with
    | true => decide
    | false => rfl
  | cons c cs2 ih =>
    obtain ⟨hc0, hcq, hcn⟩ := hcs c (by simp)
    rw [caseBlock_cons]
    have hmatch := caseM_caseLine c (caseBlock cs2 wild) hc0 hcq
    rw [caseLine_head c ('\n' :: caseBlock cs2 wild)] at hmatch ⊢
    rw [runFinditer_cons_match caseM caseM_decr _ _ _ _ hmatch]
    rw [runFindF_cons caseM caseM_anchored '\n' _, if_pos rfl]
    rw [ih (fun x hx => hcs x (by simp [hx]))]

/-- The wildcard search over the block succeeds exactly when the block ends
with the wildcard line. -/
theorem runFinditer_wildM_blob (cs : List (List Char)) (wild : Bool)
    (hcs : ∀ c ∈ cs, '\n' ∉ c) :
    runFinditer wildM (caseBlock cs wild) = if wild then [()] else [] := by
  induction cs with
  | nil =>
    cases wild with
    | true => decide
    | false => rfl
  | cons c cs2 ih =>
    rw [caseBlock_cons]
    have hfail : wildM true (caseLineChars c ++ '\n' :: caseBlock cs2 wild) = none := by
      apply wildM_none_of_lit
      rw [caseLine_head c ('\n' :: caseBlock cs2 wild),
        dropWhile_head_false _ _ _ (by decide)]
      rfl
    rw [runFinditer_skip_line wildM wildM_anchored (caseLineChars c)
      (caseLine_noNl c (hcs c (by simp))) _ hfail]
    exact ih (fun x hx => hcs x (by simp [hx]))

/-- `_extract_match_cases` on the text following the `@match` capture. -/
theorem extractMatchCases_family (cs : List (List Char)) (wild : Bool)
    (hcs : ∀ c ∈ cs, c ≠ [] ∧ '"' ∉ c ∧ '\n' ∉ c) :
    extractMatchCases ('\n' :: caseBlock cs wild) =
      cs ++ (if wild then ["_".data] else []) := by
  unfold extractMatchCases
  have hcase0 : caseM true ('\n' :: caseBlock cs wild) = none := by
    apply caseM_none_of_lit
    rw [dropWhile_head_false _ _ _ (by decide)]
    rfl
  have hwild0 : wildM true ('\n' :: caseBlock cs wild) = none := by
    apply wildM_none_of_lit
    rw [dropWhile_head_false _ _ _ (by decide)]
    rfl
  rw [runFinditer_cons_nomatch caseM '\n' _ hcase0, if_pos rfl,
    runFinditer_caseM_blob cs wild hcs]
  unfold searchFirst
  rw [runFinditer_cons_nomatch wildM '\n' _ hwild0, if_pos rfl,
    runFinditer_wildM_blob cs wild (fun c hc => (hcs c hc).2.2)]
  cases wild <;> simp

/-- The `@match` matcher on the family text. -/
theorem dirWordM_matchFamily (v : List Char) (cs : List (List Char)) (wild : Bool)
    (hv1 : v ≠ []) (hv2 : ∀ x ∈ v, isWordCharB x = true) :
    dirWordM "@match".data true (matchFamilyText v cs wild) =
      some ((v, '\n' :: caseBlock cs wild), '\n' :: caseBlock cs wild) := by
  obtain ⟨c0, vr, hc0⟩ : ∃ c0 vr, v = c0 :: vr := by
    cases v with
    | nil => exact absurd rfl hv1
    | cons a b => exact ⟨a, b, rfl⟩
  have hc0w : isPyWhite c0 = false :=
    wordChar_not_white c0 (hv2 c0 (by rw [hc0]; simp))
  have htext : matchFamilyText v cs wild =
      "@match".data ++ (' ' :: (v ++ '\n' :: caseBlock cs wild)) := by
    show "@match ".data ++ v ++ '\n' :: caseBlock cs wild = _
    have hsp : ("@match ".data : List Char) = "@match".data ++ [' '] := by decide
    rw [hsp]
    simp [List.append_assoc]
  rw [htext]
  have hs1d : ("@match".data ++ (' ' :: (v ++ '\n' :: caseBlock cs wild))).dropWhile
      isSpaceTab = "@match".data ++ (' ' :: (v ++ '\n' :: caseBlock cs wild)) := by
    have hsh : "@match".data ++ (' ' :: (v ++ '\n' :: caseBlock cs wild)) =
        '@' :: ("match".data ++ (' ' :: (v ++ '\n' :: caseBlock cs wild))) := rfl
    rw [hsh, dropWhile_head_false _ _ _ (by decide), ← hsh]
  have hlit : litAt "@match".data
      ("@match".data ++ (' ' :: (v ++ '\n' :: caseBlock cs wild))) = true :=
    litAt_append _ _
  have hdrop6 : ("@match".data ++ (' ' :: (v ++ '\n' :: caseBlock cs wild))).drop
      ("@match".data : List Char).length = ' ' :: (v ++ '\n' :: caseBlock cs wild) :=
    List.drop_left _ _
  have htwW : (' ' :: (v ++ '\n' :: caseBlock cs wild)).takeWhile isPyWhite =
      ' ' :: ((v ++ '\n' :: caseBlock cs wild).takeWhile isPyWhite) :=
    takeWhile_cons_pos _ _ _ (by decide)
  have hdwW : (' ' :: (v ++ '\n' :: caseBlock cs wild)).dropWhile isPyWhite =
      v ++ '\n' :: caseBlock cs wild := by
    rw [dropWhile_cons_pos _ _ _ (by decide), hc0, List.cons_append,
      dropWhile_head_false _ _ _ hc0w, ← List.cons_append, ← hc0]
  have hallw : ∀ x ∈ v, isWordCharB x = true := hv2
  have hvtake : (v ++ '\n' :: caseBlock cs wild).takeWhile isWordCharB = v :=
    takeWhile_app _ _ _ _ hallw (by decide)
  have hvdrop : (v ++ '\n' :: caseBlock cs wild).dropWhile isWordCharB =
      '\n' :: caseBlock cs wild :=
    dropWhile_app _ _ _ _ hallw (by decide)
  simp only [dirWordM, Bool.not_true, Bool.false_eq_true, if_false, hs1d, hlit,
    if_true, hdrop6, htwW, hdwW, hvtake, hvdrop]
  rw [if_neg (by simp), if_neg hv1]

/-- The family contains exactly one `@match` directive. -/
theorem matchPairs_family (v : List Char) (cs : List (List Char)) (wild : Bool)
    (hv1 : v ≠ []) (hv2 : ∀ x ∈ v, isWordCharB x = true)
    (hcs : ∀ c ∈ cs, '\n' ∉ c) :
    matchPairs (matchFamilyText v cs wild) =
      [(v, '\n' :: caseBlock cs wild)] := by
  have hM := dirWordM_matchFamily v cs wild hv1 hv2
  have hcons : matchFamilyText v cs wild =
      '@' :: ("match ".data ++ (v ++ '\n' :: caseBlock cs wild)) := by
    show "@match ".data ++ v ++ '\n' :: caseBlock cs wild = _
    simp [List.append_assoc]
  rw [hcons] at hM
  unfold matchPairs
  rw [hcons, runFinditer_cons_match _ (dirWordM_decr _) _ _ _ _ hM]
  rw [runFindF_cons _ (dirWordM_anchored _) '\n' _, if_pos rfl]
  rw [runFinditer_caseBlock_nil (dirWordM "@match".data) (dirWordM_anchored _)
    cs wild hcs ?hfail ?hwild]
  case hfail =>
    intro c _ rest
    apply dirWordM_none_of_lit
    rw [caseLine_head c ('\n' :: rest), dropWhile_head_false _ _ _ (by decide)]
    rfl
  case hwild =>
    cases wild with
    | true => decide
    | false => rfl

/-- Splitting the case block into physical lines. -/
theorem slGo_caseBlockLines (cs : List (List Char)) (wild : Bool) :
    (∀ c ∈ cs, '\n' ∉ c ∧ '\r' ∉ c) →
    ∀ (hd : List Char), (∀ x ∈ hd, x ≠ '\n' ∧ x ≠ '\r') →
    slGo [] (hd ++ '\n' :: caseBlock cs wild) =
      hd :: (cs.map caseLineChars ++ (if wild then ["_ ==>".data] else [])) := by
  induction cs with
  | nil =>
    intro _ hd hh
    cases wild with
    | true =>
      rw [slGo_append _ [] _ hh,
        show caseBlock [] true = "_ ==>\n".data from rfl,
        if_neg (by decide : ¬(("_ ==>\n".data : List Char) = [])),
        show slGo [] ("_ ==>\n".data) = ["_ ==>".data] from by decide]
      simp
    | false =>
      rw [show caseBlock [] false = [] from rfl, slGo_append _ [] _ hh, if_pos rfl]
      simp
  | cons c cs2 ih =>
    intro hcs hd hh
    have hc := hcs c (by simp)
    rw [caseBlock_cons, slGo_append _ [] _ hh,
      if_neg (by simp [caseLineChars] :
        ¬(caseLineChars c ++ '\n' :: caseBlock cs2 wild = [])),
      ih (fun x hx => hcs x (by simp [hx])) (caseLineChars c)
        (caseLine_noTerm c hc.1 hc.2)]
    simp

/-- The physical lines of the `@match` family text. -/
theorem splitLines_matchFamily (v : List Char) (cs : List (List Char))
    (wild : Bool) (hv : ∀ x ∈ v, x ≠ '\n' ∧ x ≠ '\r')
    (hcs : ∀ c ∈ cs, '\n' ∉ c ∧ '\r' ∉ c) :
    splitLines (matchFamilyText v cs wild) =
      ("@match ".data ++ v) :: (cs.map caseLineChars ++
        (if wild then ["_ ==>".data] else [])) := by
  have hhead : ∀ x ∈ "@match ".data ++ v, x ≠ '\n' ∧ x ≠ '\r' := by
    have hm : ∀ x ∈ ("@match ".data : List Char), x ≠ '\n' ∧ x ≠ '\r' := by
      decide
    intro x hx
    rcases List.mem_append.mp hx with h | h
    · exact hm x h
    · exact hv x h
  rw [show splitLines (matchFamilyText v cs wild) =
      slGo [] (("@match ".data ++ v) ++ '\n' :: caseBlock cs wild) from rfl]
  exact slGo_caseBlockLines cs wild hcs ("@match ".data ++ v) hhead

/-- With no `@note` line the first pass yields no ranges. -/
theorem noteScan_nil_of_no_note (lines : List (List Char))
    (h : ∀ l ∈ lines, litAt "@note".data (stripChars l) = false) :
    ∀ i, noteScan none i lines = [] := by
  induction lines with
  | nil => intro i; rfl
  | cons l ls ih =>
    intro i
    rw [show noteScan none i (l :: ls) =
        (if litAt "@note".data (stripChars l) then
          noteScan (some (i, [])) (i + 1) ls
        else noteScan none (i + 1) ls) from rfl,
      h l (by simp)]
    simp only [Bool.false_eq_true, if_false]
    exact ih (fun x hx => h x (by simp [hx])) (i + 1)

/-- With no ranges, one line of the second pass changes nothing. -/
theorem hintLine_nil_ranges (idx : Nat) (l : List Char) :
    ∀ (h : List (List Char × List Char)), hintLine [] idx h l = h := by
  unfold hintLine
  generalize runFinditer mustacheM l = ms
  induction ms with
  | nil => intro h; rfl
  | cons m ms2 ih =>
    intro h
    simp only [List.foldl_cons]
    rw [ih]
    cases hlk : (lookupL m h).isSome
    · rfl
    · rfl

/-- With no ranges, the second pass returns the accumulator unchanged. -/
theorem hintsPass_nil_ranges (lines : List (List Char)) :
    ∀ (i : Nat) (h : List (List Char × List Char)),
    hintsPass [] i lines h = h := by
  induction lines with
  | nil => intro i h; rfl
  | cons l ls ih =>
    intro i h
    show hintsPass [] (i + 1) ls (hintLine [] i h l) = h
    rw [hintLine_nil_ranges i l h]
    exact ih (i + 1) h

/-- The `@match` family text carries no note hints at all. -/
theorem extractNoteHints_family (v : List Char) (cs : List (List Char))
    (wild : Bool) (hv1 : v ≠ []) (hv2 : ∀ x ∈ v, isWordCharB x = true)
    (hcs : ∀ c ∈ cs, c ≠ [] ∧ '"' ∉ c ∧ '\n' ∉ c ∧ '\r' ∉ c) :
    extractNoteHints (matchFamilyText v cs wild) = [] := by
  have hvterm : ∀ x ∈ v, x ≠ '\n' ∧ x ≠ '\r' := by
    intro x hx
    constructor <;> (intro hh; subst hh; exact absurd (hv2 _ hx) (by decide))
  have hlines := splitLines_matchFamily v cs wild hvterm
    (fun c hc => ⟨(hcs c hc).2.2.1, (hcs c hc).2.2.2⟩)
  unfold extractNoteHints noteHintsLines
  rw [hlines]
  have hnote : ∀ l ∈ ("@match ".data ++ v) :: (cs.map caseLineChars ++
      (if wild then ["_ ==>".data] else [])),
      litAt "@note".data (stripChars l) = false := by
    intro l hl
    rcases List.mem_cons.mp hl with rfl | hl2
    · have hlast : isPyWhite ((("@match ".data ++ v)).reverse.headD 'x') =
          false := by
        rw [rev_headD_append _ _ _ hv1]
        cases hvr : v.reverse with
        | nil => exact absurd (by simpa using congrArg List.reverse hvr) hv1
        | cons y ys =>
          have hy : y ∈ v := by
            have hy2 : y ∈ v.reverse := by rw [hvr]; simp
            simpa using hy2
          simpa using wordChar_not_white y (hv2 y hy)
      rw [stripChars_eq_self _ 'x' 'x'
        (show isPyWhite ((("@match ".data ++ v)).headD 'x') = false from rfl)
        hlast]
      rfl
    · rcases List.mem_append.mp hl2 with hl3 | hl3
      · obtain ⟨c, hc, rfl⟩ := List.mem_map.mp hl3
        have hsh : caseLineChars c =
            ('"' :: c) ++ ('"' :: ' ' :: '=' :: '=' :: '>' :: []) := by
          simp [caseLineChars]
        have hlast : isPyWhite ((caseLineChars c).reverse.headD 'x') =
            false := by
          rw [hsh, rev_headD_append _ _ _ (by simp)]
          decide
        rw [stripChars_eq_self _ 'x' 'x'
          (show isPyWhite ((caseLineChars c).headD 'x') = false from rfl) hlast]
        rfl
      · cases wild with
        | true =>
          rw [if_pos rfl] at hl3
          have hl4 : l = "_ ==>".data := by simpa using hl3
          subst hl4
          decide
        | false =>
          rw [if_neg (by simp : ¬(false = true))] at hl3
          exact absurd hl3 (List.not_mem_nil l)
  rw [noteScan_nil_of_no_note _ hnote 0]
  exact hintsPass_nil_ranges _ 0 []

/-- C9: for a spec that is a single `@match` directive on variable `v`
followed by `N` quoted case lines `"literal" ==>` (optionally closed by a
wildcard line `_ ==>`), `scan_spec` yields a descriptor for `v` of kind
`select` whose options are exactly the `N` case literals in source order,
with the sentinel `"_"` appended exactly when the wildcard line is
present. -/
theorem match_select_family (v : List Char) (cs : List (List Char))
    (wild : Bool) (hv1 : v ≠ []) (hv2 : ∀ x ∈ v, isWordCharB x = true)
    (hcs : ∀ c ∈ cs, c ≠ [] ∧ '"' ∉ c ∧ '\n' ∉ c ∧ '\r' ∉ c) :
    (scanSpecChars (matchFamilyText v cs wild)).inputs.head? =
      some ⟨v, "select".data, some (cs ++ (if wild then ["_".data] else [])),
        none, none, none, some "@match".data⟩ := by
  have hhints : extractNoteHints (matchFamilyText v cs wild) = [] :=
    extractNoteHints_family v cs wild hv1 hv2 hcs
  have hmp : matchPairs (matchFamilyText v cs wild) =
      [(v, '\n' :: caseBlock cs wild)] :=
    matchPairs_family v cs wild hv1 hv2 (fun c hc => (hcs c hc).2.2.1)
  have hemc : extractMatchCases ('\n' :: caseBlock cs wild) =
      cs ++ (if wild then ["_".data] else []) :=
    extractMatchCases_family cs wild
      (fun c hc => ⟨(hcs c hc).1, (hcs c hc).2.1, (hcs c hc).2.2.1⟩)
  have hinputs : (scanSpecChars (matchFamilyText v cs wild)).inputs =
      runStages (scanStages (matchFamilyText v cs wild)
        (extractNoteHints (matchFamilyText v cs wild))) [] := rfl
  rw [hinputs, hhints]
  rw [show runStages (scanStages (matchFamilyText v cs wild) []) [] =
      (dedupInputs (fun _ => false)
          ((matchPairs (matchFamilyText v cs wild)).map (mkSelect [])) []).2 ++
        runStages ((scanStages (matchFamilyText v cs wild) []).tail)
          (dedupInputs (fun _ => false)
            ((matchPairs (matchFamilyText v cs wild)).map (mkSelect [])) []).1
    from rfl]
  rw [hmp]
  rw [show (dedupInputs (fun _ => false)
      ([(v, '\n' :: caseBlock cs wild)].map (mkSelect [])) []) =
      ([v], [(mkSelect [] (v, '\n' :: caseBlock cs wild)).2]) from rfl]
  show some (mkSelect [] (v, '\n' :: caseBlock cs wild)).2 =
    some ⟨v, "select".data, some (cs ++ (if wild then ["_".data] else [])),
      none, none, none, some "@match".data⟩
  rw [show (mkSelect [] (v, '\n' :: caseBlock cs wild)).2 =
      (⟨v, "select".data, some (extractMatchCases ('\n' :: caseBlock cs wild)),
        none, none, none, some "@match".data⟩ : SpecInput) from rfl, hemc]

/-- C9 witness: `@match tone` with cases `formal`, `casual` and a
wildcard. -/
theorem match_select_family_witness :
    ((("tone".data : List Char) ≠ [] ∧
        (∀ x ∈ ("tone".data : List Char), isWordCharB x = true) ∧
        (∀ c ∈ [("formal".data : List Char), "casual".data],
          c ≠ [] ∧ '"' ∉ c ∧ '\n' ∉ c ∧ '\r' ∉ c)) ∧
      (scanSpecChars (matchFamilyText "tone".data
          ["formal".data, "casual".data] true)).inputs.head? =
        some ⟨"tone".data, "select".data,
          some (["formal".data, "casual".data] ++
            (if true then ["_".data] else [])),
          none, none, none, some "@match".data⟩) :=
  ⟨⟨by decide, by decide, by decide⟩,
    match_select_family "tone".data ["formal".data, "casual".data] true
      (by decide) (by decide) (by decide)⟩

/-- C10 witness. -/
theorem description_stops_at_directive_witness :
    0 < (splitLines "@match x\n# Title\nFree text after.".data).length ∧
    litAt "@".data (stripChars ((splitLines
      "@match x\n# Title\nFree text after.".data).getD 0 [])) = true ∧
    (scanSpecChars "@match x\n# Title\nFree text after.".data).description = [] :=
  ⟨by decide, by decide,
    description_stops_at_directive "@match x\n# Title\nFree text after.".data 0
      (by decide) (by decide) (fun j hj => absurd hj (by omega))⟩

end PromptSpec
